import Mathlib

/-!
Verification development for the review-evaluation webapp
(`src/webapp/evaluate.js` and `src/webapp/app.js`).

The JavaScript code is shallowly embedded: JS objects become structures,
the relevant DOM event handlers become pure state-transition functions on
the paper collection, and JS numbers are modelled exactly where the code
only ever manipulates small integers.  For the seeded random number
generator (`seededRandom`) the code multiplies 31-bit states by a large
constant, where IEEE-754 double rounding is observable; there the model
includes an explicit binary64 rounding function (`flQ`) so that the
arithmetic is bit-faithful to JavaScript.
-/

set_option maxRecDepth 40000

/-! ## Data model (section 3 of the spec; shapes used by `evaluate.js`) -/

/-- The mutable `metrics` object of a review: five numeric rubric scores
(0 = unset), the `source` classification string and a free-text comment. -/
structure Metrics where
  coverage : ℕ
  specificity : ℕ
  correctness : ℕ
  constructiveness : ℕ
  stance : ℕ
  source : String
  comment : String
deriving DecidableEq

/-- One review of a paper.  Only the fields the analysed handlers read are
modelled; `text` keeps reviews distinguishable. -/
structure Review where
  text : String
  metrics : Metrics
deriving DecidableEq

/-- One paper of the collection, with the fields read by the filter code
and the evaluation page. -/
structure Paper where
  title : String
  evaluators : List String
  primary_area : List String
  keywords : List String
  status : String
  reviews : List Review
deriving DecidableEq

/-- The flat options object served by `/config` (`loadConfig`). -/
structure AppConfig where
  showHarmonizedByDefault : Bool
  defaultHarmonizationModel : String
  enableModelDropdown : Bool
  enableSplitView : Bool
  showReviewerType : Bool
  shuffleReviews : Bool
  shuffleSeed : ℤ
deriving DecidableEq

/-! ## Progress and status (`calculateProgress`, `updatePaperStatus`) -/

/-- `hasSource` in `calculateProgress`:
`metrics.source && (source === 'ai' || 'human' || '1' || '2')`. -/
def hasSource (m : Metrics) : Bool :=
  decide (m.source ≠ "") &&
    (m.source == "ai" || m.source == "human" || m.source == "1" || m.source == "2")

/-- `hasAllMetrics` in `calculateProgress`: all five scores strictly
positive and a recognised source. -/
def hasAllMetrics (m : Metrics) : Bool :=
  decide (0 < m.coverage) && decide (0 < m.specificity) &&
    decide (0 < m.correctness) && decide (0 < m.constructiveness) &&
    decide (0 < m.stance) && hasSource m

/-- `calculateProgress(paper)`: returns the pair (completed, total);
an absent or empty review list yields (0, 0). -/
def calculateProgress (p : Paper) : ℕ × ℕ :=
  if p.reviews = [] then (0, 0)
  else (p.reviews.countP (fun r => hasAllMetrics r.metrics), p.reviews.length)

/-- The three-way branch of `updatePaperStatus`. -/
def statusFromProgress (completed total : ℕ) : String :=
  if completed = 0 then "not_started"
  else if completed < total then "in_progress"
  else "completed"

/-- `updatePaperStatus()`: recomputes `paper.status` from
`calculateProgress`. -/
def updatePaperStatus (p : Paper) : Paper :=
  let pr := calculateProgress p
  { p with status := statusFromProgress pr.1 pr.2 }

/-- The status value `updatePaperStatus` would assign. -/
def recomputedStatus (p : Paper) : String :=
  (updatePaperStatus p).status

/-! ## Metric mutation handlers

`setupStarRatings` and `setupSourceButtons` mutate
`currentPaper.reviews[reviewIndex].metrics[key]` and then call
`updatePaperStatus()`.  The clear-evaluation handler
(`setupClearEvaluationButtons`) zeroes the metrics object, saves and
re-renders the review list, but calls no status recomputation. -/

/-- The five star-rated metric keys. -/
inductive MetricKey where
  | coverage
  | specificity
  | correctness
  | constructiveness
  | stance
deriving DecidableEq

/-- `metrics[metricKey] = value` for a star metric. -/
def setMetricField (m : Metrics) (key : MetricKey) (v : ℕ) : Metrics :=
  match key with
  | .coverage => { m with coverage := v }
  | .specificity => { m with specificity := v }
  | .correctness => { m with correctness := v }
  | .constructiveness => { m with constructiveness := v }
  | .stance => { m with stance := v }

/-- Read a star metric field. -/
def getMetricField (m : Metrics) (key : MetricKey) : ℕ :=
  match key with
  | .coverage => m.coverage
  | .specificity => m.specificity
  | .correctness => m.correctness
  | .constructiveness => m.constructiveness
  | .stance => m.stance

/-- Star click handler (`setupStarRatings`): write the clicked value into
`currentPaper.reviews[reviewIndex].metrics[metricKey]`, then
`updatePaperStatus()`.  `reviewIndex` is the `data-review` attribute of
the clicked control. -/
def starClick (p : Paper) (reviewIndex : ℕ) (key : MetricKey) (v : ℕ) : Paper :=
  updatePaperStatus
    { p with reviews :=
        p.reviews.modify (fun r => { r with metrics := setMetricField r.metrics key v }) reviewIndex }

/-- Source button handler (`setupSourceButtons`): write the string value
(`"ai"` or `"human"`), then `updatePaperStatus()`. -/
def sourceClick (p : Paper) (reviewIndex : ℕ) (v : String) : Paper :=
  updatePaperStatus
    { p with reviews :=
        p.reviews.modify (fun r => { r with metrics := { r.metrics with source := v } }) reviewIndex }

/-- The cleared metrics object written by the clear-evaluation handler. -/
def emptyMetrics : Metrics :=
  { coverage := 0, specificity := 0, correctness := 0, constructiveness := 0,
    stance := 0, source := "", comment := "" }

/-- Clear-evaluation handler (confirmed path of
`setupClearEvaluationButtons`): zero all metric fields, then save and
re-render.  Note: the handler does not call `updatePaperStatus`, so
`paper.status` is left as it was. -/
def clearEvaluation (p : Paper) (reviewIndex : ℕ) : Paper :=
  { p with reviews :=
      p.reviews.modify (fun r => { r with metrics := emptyMetrics }) reviewIndex }

/-! ## Configuration fallback (`loadConfig`) -/

/-- The hard-coded defaults assigned in the `catch` branch of
`loadConfig` when the `/config` fetch fails. -/
def fallbackConfig : AppConfig :=
  { showHarmonizedByDefault := true
    defaultHarmonizationModel := "gpt-4o-mini"
    enableModelDropdown := false
    enableSplitView := false
    showReviewerType := false
    shuffleReviews := false
    shuffleSeed := 42 }

/-- `loadConfig`: the config the page continues with, given the fetch
outcome (`none` = the fetch or JSON parse threw). -/
def loadConfig (fetched : Option AppConfig) : AppConfig :=
  match fetched with
  | some c => c
  | none => fallbackConfig

/-! ## Filters (`app.js` `filterPapers`, `evaluate.js` `getFilteredPapers`,
`loadFilters`) -/

/-- The five-set filter state built by `loadFilters` / kept by `app.js`. -/
structure FilterState where
  evaluators : List String
  areas : List String
  keywords : List String
  titleKeywords : List String
  statuses : List String
deriving DecidableEq

/-- The parsed JSON blob found under the `reviewFilters` key; each field
may be missing (`undefined`). -/
structure StoredFilters where
  evaluators : Option (List String)
  areas : Option (List String)
  keywords : Option (List String)
  titleKeywords : Option (List String)
  statuses : Option (List String)
deriving DecidableEq

/-- `loadFilters()`: `none` models both an absent `reviewFilters` key and
a JSON parse error (the `catch` falls through to `return null`); each
stored field defaults to the empty set via `|| []`. -/
def loadFilters (saved : Option StoredFilters) : Option FilterState :=
  match saved with
  | none => none
  | some d =>
      some { evaluators := d.evaluators.getD []
             areas := d.areas.getD []
             keywords := d.keywords.getD []
             titleKeywords := d.titleKeywords.getD []
             statuses := d.statuses.getD [] }

/-- `String.prototype.toLowerCase`, modelled characterwise. -/
def jsToLower (s : String) : List Char :=
  s.data.map Char.toLower

/-- `hay.includes(needle)`: contiguous-substring test on character
lists. -/
def strContains (hay needle : List Char) : Bool :=
  if needle.isPrefixOf hay then true
  else
    match hay with
    | [] => false
    | _ :: t => strContains t needle

/-- The shared per-paper filter predicate: the guard chain that both
`filterPapers` (app.js) and the `forEach` body of `getFilteredPapers`
(evaluate.js) execute, with early `return false` / `return` on the first
failing non-empty filter field. -/
def paperPassesFilters (f : FilterState) (p : Paper) : Bool :=
  if f.evaluators.length > 0 && !(p.evaluators.any (fun e => f.evaluators.contains e)) then
    false
  else if f.areas.length > 0 && !(p.primary_area.any (fun a => f.areas.contains a)) then
    false
  else if f.keywords.length > 0 &&
      !(f.keywords.all (fun kw => p.keywords.any (fun k => strContains (jsToLower k) (jsToLower kw)))) then
    false
  else if f.titleKeywords.length > 0 &&
      !(f.titleKeywords.all (fun kw => strContains (jsToLower p.title) (jsToLower kw))) then
    false
  else if f.statuses.length > 0 && !(f.statuses.contains p.status) then
    false
  else
    true

/-- `filterPapers()` (app.js): the filtered paper list. -/
def filterPapers (f : FilterState) (papers : List Paper) : List Paper :=
  papers.filter (fun p => paperPassesFilters f p)

/-- `getFilteredPapers()` (evaluate.js): indices of the papers that pass
the saved filters, in collection order; with no saved filters every index
is returned (`allPapers.map((_, index) => index)`). -/
def getFilteredPapers (saved : Option StoredFilters) (papers : List Paper) : List ℕ :=
  match loadFilters saved with
  | none => List.range papers.length
  | some f => (papers.enum.filter (fun ip => paperPassesFilters f ip.2)).map Prod.fst

/-! ## Binary64 rounding

`seededRandom` computes `(state * 1103515245 + 12345) & 0x7fffffff` and
`state / 0x7fffffff`, and `shuffleWithSeed` computes
`Math.floor(rng() * (i + 1))`.  JavaScript evaluates every `*`, `+` and
`/` in IEEE-754 binary64, rounding each result to 53 significant bits
(round to nearest, ties to even); `& 0x7fffffff` applies ToInt32 and
keeps the low 31 bits.  `flQ` below is that rounding on exact rationals;
all values reached here stay far inside the finite double range, so
overflow to infinity and subnormal underflow never occur and need no
model. -/

/-- Fuel-based bit length: `bitlenAux fuel n` is the number of binary
digits of `n`, provided `n ≤ fuel`. -/
def bitlenAux : ℕ → ℕ → ℕ
  | 0, _ => 0
  | fuel + 1, n => if n = 0 then 0 else bitlenAux fuel (n / 2) + 1

/-- Number of binary digits of `n` (0 for 0). -/
def bitlen (n : ℕ) : ℕ :=
  bitlenAux n n

/-- `2 ^ e` as a rational, for an integer exponent, in a form the kernel
evaluates cheaply. -/
def pow2 (e : ℤ) : ℚ :=
  if 0 ≤ e then ((2 ^ e.toNat : ℕ) : ℚ) else Rat.divInt 1 (2 ^ (-e).toNat)

/-- For `q > 0`, the exponent `e` with `pow2 e ≤ q < pow2 (e + 1)`. -/
def binade (q : ℚ) : ℤ :=
  let e0 : ℤ := ((bitlen q.num.toNat : ℤ) - 1) - ((bitlen q.den : ℤ) - 1)
  if pow2 e0 ≤ q then e0 else e0 - 1

/-- Round a rational to the nearest integer, ties to the even neighbour
(the IEEE-754 default rounding applied to the scaled significand). -/
def roundNearestEven (n : ℚ) : ℤ :=
  if n - (⌊n⌋ : ℚ) < 1 / 2 then ⌊n⌋
  else if 1 / 2 < n - (⌊n⌋ : ℚ) then ⌊n⌋ + 1
  else if ⌊n⌋ % 2 = 0 then ⌊n⌋ else ⌊n⌋ + 1

/-- Binary64 rounding of a positive rational: round onto the grid of
spacing `2 ^ (binade q - 52)`. -/
def flQpos (q : ℚ) : ℚ :=
  (roundNearestEven (q / pow2 (binade q - 52)) : ℚ) * pow2 (binade q - 52)

/-- Binary64 rounding of an arbitrary (in-range) rational. -/
def flQ (q : ℚ) : ℚ :=
  if q = 0 then 0
  else if 0 < q then flQpos q
  else -(flQpos (-q))

/-! ## The seeded generator and the Fisher-Yates shuffle
(`seededRandom`, `shuffleWithSeed`) -/

/-- One update of the generator state:
`state = (state * 1103515245 + 12345) & 0x7fffffff`, with the product and
the sum each rounded to binary64 and `&` acting on the ToInt32 image
(for any integer value this composite is the nonnegative residue
mod `2 ^ 31`). -/
def jsLCG (s : ℤ) : ℤ :=
  ⌊flQ (flQ ((s : ℚ) * 1103515245) + 12345)⌋ % 2147483648

/-- `Math.floor(rng() * k)` where `rng()` returned `state / 0x7fffffff`:
the division and the product are each rounded to binary64. -/
def jsDrawJ (state : ℤ) (k : ℕ) : ℕ :=
  (⌊flQ (flQ ((state : ℚ) / 2147483647) * (k : ℚ))⌋).toNat

/-- JS array read `l[k]`: `undefined` (`none`) when out of range.  Array
elements are themselves `Option α` so that `undefined` can be stored. -/
def jsRead (l : List (Option α)) (k : ℕ) : Option α :=
  l.getD k none

/-- JS array write `l[k] = v`: in range it updates, at `k = length` it
appends, past the end it fills the gap with holes (read back as
`undefined`). -/
def jsWrite (l : List (Option α)) (k : ℕ) (v : Option α) : List (Option α) :=
  if k < l.length then l.set k v
  else l ++ List.replicate (k - l.length) none ++ [v]

/-- `[shuffled[i], shuffled[j]] = [shuffled[j], shuffled[i]]`: both reads
happen first, then the write to index `i`, then the write to index `j`. -/
def jsSwap (l : List (Option α)) (i j : ℕ) : List (Option α) :=
  jsWrite (jsWrite l i (jsRead l j)) j (jsRead l i)

/-- The loop of `shuffleWithSeed`, indexed by the loop counter:
`for (let i = shuffled.length - 1; i > 0; i--)` draws
`j = Math.floor(rng() * (i + 1))` and swaps positions `i` and `j`.
The generator state advances once per iteration (each `rng()` call
updates first, then returns). -/
def fisherYatesLoop : List (Option α) → ℤ → ℕ → List (Option α)
  | l, _, 0 => l
  | l, st, i + 1 =>
      let st' := jsLCG st
      let j := jsDrawJ st' (i + 2)
      fisherYatesLoop (jsSwap l (i + 1) j) st' i

/-- `shuffleWithSeed(array, seed)`: copies the array and runs the seeded
backward Fisher-Yates walk on the copy. -/
def shuffleWithSeed (array : List (Option α)) (seed : ℤ) : List (Option α) :=
  fisherYatesLoop array seed (array.length - 1)

/-- `shuffleWithSeed` together with the final contents of its argument:
the function mutates only the copy `shuffled = [...array]`, so the
argument array is returned unchanged. -/
def shuffleWithSeedRun (array : List (Option α)) (seed : ℤ) :
    List (Option α) × List (Option α) :=
  (shuffleWithSeed array seed, array)

/-- The `(i, j)` pairs drawn by the walk, for a loop starting at counter
`c` with state `st` (outer entry: `c = length - 1`, `st = seed`). -/
def fisherYatesDraws : ℤ → ℕ → List (ℕ × ℕ)
  | _, 0 => []
  | st, i + 1 =>
      let st' := jsLCG st
      (i + 1, jsDrawJ st' (i + 2)) :: fisherYatesDraws st' i

/-- The draw sequence `shuffleWithSeed` performs on an array of length
`n` with the given seed. -/
def shuffleDraws (seed : ℤ) (n : ℕ) : List (ℕ × ℕ) :=
  fisherYatesDraws seed (n - 1)

/-! ## Review display order and metric binding (`renderReviews`,
`renderMetric`, `setupStarRatings`) -/

/-- The original review index displayed at each position of the review
list.  With shuffling on, `renderReviews` pairs each review with its
`originalIndex`, shuffles the pairs with seed
`appConfig.shuffleSeed + paperIndex`, and renders the shuffled order;
the rendered markup then uses only the display position `index` in every
`data-review` attribute, dropping `originalIndex`. -/
def displayedOriginalIndices (cfg : AppConfig) (paperIndex : ℕ) (p : Paper) :
    List (Option ℕ) :=
  if cfg.shuffleReviews then
    (shuffleWithSeed (p.reviews.enum.map some) (cfg.shuffleSeed + paperIndex)).map
      (Option.map Prod.fst)
  else
    p.reviews.enum.map (fun x => some x.1)

/-- The metric value a star row displays (`renderMetric`): it reads
`currentPaper.reviews[reviewIndex].metrics[key]` where `reviewIndex` is
the display position of the row. -/
def metricControlValue (p : Paper) (displayIndex : ℕ) (key : MetricKey) : Option ℕ :=
  (p.reviews.get? displayIndex).map (fun r => getMetricField r.metrics key)

/-! ## Debounced comment saves (`setupCommentInputs`)

A small event machine over the page: `comment` is the in-memory
`metrics.comment` of each review, `slot` is the `commentSaveTimeouts`
map, `timers` is the runtime table of scheduled timeouts
(id, review, deadline), `saves` logs each `saveEvaluation()` call with
the review it came from and the comment content at that moment, and
`lastTime` is the time of the last processed event. -/

structure WorkspaceState where
  comment : ℕ → String
  slot : ℕ → Option ℕ
  timers : List (ℕ × ℕ × ℕ)
  nextId : ℕ
  saves : List (ℕ × String)
  lastTime : ℕ

/-- Page load: comments populated from the data, no pending timers, no
saves yet. -/
def initialWorkspace (c0 : ℕ → String) : WorkspaceState :=
  { comment := c0, slot := fun _ => none, timers := [], nextId := 0,
    saves := [], lastTime := 0 }

/-- The events that drive the comment machinery: a keystroke delivering
the new textarea value, a blur delivering the final value, and the
runtime firing a scheduled timeout. -/
inductive WSEvent where
  | input (r : ℕ) (text : String) (t : ℕ)
  | blur (r : ℕ) (text : String) (t : ℕ)
  | fire (id : ℕ) (t : ℕ)
deriving DecidableEq

/-- Timestamp of an event. -/
def WSEvent.time : WSEvent → ℕ
  | .input _ _ t => t
  | .blur _ _ t => t
  | .fire _ t => t

/-- Whether an event is a user action (input or blur) on review `r`. -/
def WSEvent.userFor (r : ℕ) : WSEvent → Bool
  | .input r' _ _ => r' == r
  | .blur r' _ _ => r' == r
  | .fire _ _ => false

/-- One step of the machine, following the three handlers of
`setupCommentInputs` and the timeout callback:
input updates the comment, clears the pending timeout for that review if
any and schedules a fresh save 600 ms out; blur clears the pending
timeout if any, updates the comment and saves immediately; a firing
timeout nulls the slot of its review and saves. -/
def wsStep (s : WorkspaceState) : WSEvent → WorkspaceState
  | .input r text t =>
      let timers1 := match s.slot r with
        | some id => s.timers.filter (fun e => e.1 ≠ id)
        | none => s.timers
      { comment := fun x => if x = r then text else s.comment x
        slot := fun x => if x = r then some s.nextId else s.slot x
        timers := timers1 ++ [(s.nextId, r, t + 600)]
        nextId := s.nextId + 1
        saves := s.saves
        lastTime := t }
  | .blur r text t =>
      let timers1 := match s.slot r with
        | some id => s.timers.filter (fun e => e.1 ≠ id)
        | none => s.timers
      { comment := fun x => if x = r then text else s.comment x
        slot := fun x => if x = r then none else s.slot x
        timers := timers1
        nextId := s.nextId
        saves := s.saves ++ [(r, text)]
        lastTime := t }
  | .fire id t =>
      match s.timers.find? (fun e => e.1 == id) with
      | some (_, r, _) =>
          { comment := s.comment
            slot := fun x => if x = r then none else s.slot x
            timers := s.timers.filter (fun e => e.1 ≠ id)
            nextId := s.nextId
            saves := s.saves ++ [(r, s.comment r)]
            lastTime := t }
      | none => { s with lastTime := t }

/-- Run a list of events. -/
def wsRun (s : WorkspaceState) : List WSEvent → WorkspaceState
  | [] => s
  | e :: rest => wsRun (wsStep s e) rest

/-- Whether an event can occur in state `s`: time never decreases, and
the runtime fires only a scheduled timeout whose deadline has passed. -/
def eventOK (s : WorkspaceState) : WSEvent → Bool
  | .input _ _ t => s.lastTime ≤ t
  | .blur _ _ t => s.lastTime ≤ t
  | .fire id t =>
      decide (s.lastTime ≤ t) &&
        s.timers.any (fun e => e.1 == id && decide (e.2.2 ≤ t))

/-- A trace the browser runtime can actually produce from state `s`. -/
def validFrom (s : WorkspaceState) : List WSEvent → Bool
  | [] => true
  | e :: rest => eventOK s e && validFrom (wsStep s e) rest

/-- The debounce-window condition on a burst: each timestamp in the list
is strictly less than its predecessor plus 600 ms. -/
def gapsOK : List ℕ → Bool
  | [] => true
  | [_] => true
  | a :: b :: rest => decide (b < a + 600) && gapsOK (b :: rest)

/-- Timestamp of the next user action on the review: the first input of
the burst, or the blur when no inputs remain. -/
def firstUserTime (us : List (String × ℕ)) (tb : ℕ) : ℕ :=
  match us with
  | [] => tb
  | p :: _ => p.2

/-- Structural invariant of the comment machinery: timer ids are fresh
and pairwise distinct, and each review has exactly the pending timers
its `commentSaveTimeouts` slot says it has (one if the slot is set, none
otherwise). -/
def WSInv (s : WorkspaceState) : Prop :=
  (∀ e ∈ s.timers, e.1 < s.nextId) ∧
  List.Pairwise (fun a b => a.1 ≠ b.1) s.timers ∧
  (∀ r : ℕ, match s.slot r with
    | some id => ∃ dl, s.timers.filter (fun e => e.2.1 == r) = [(id, r, dl)]
    | none => s.timers.filter (fun e => e.2.1 == r) = [])

/-! ## Concrete fixtures used by witnesses and counterexamples -/

/-- A metrics object that satisfies the completeness predicate. -/
def completeMetrics : Metrics :=
  { coverage := 5, specificity := 4, correctness := 3, constructiveness := 4,
    stance := 3, source := "ai", comment := "ok" }

/-- A paper with a single fully rated review, with the status the code
itself would have cached for it. -/
def samplePaper : Paper :=
  { title := "Sample", evaluators := ["eva"], primary_area := ["nlp"],
    keywords := ["graph neural network"], status := "completed",
    reviews := [{ text := "r0", metrics := completeMetrics }] }

/-- A paper with an empty review list. -/
def emptyPaper : Paper :=
  { title := "Empty", evaluators := [], primary_area := [], keywords := [],
    status := "not_started", reviews := [] }

/-- A paper with two distinguishable, unrated reviews. -/
def twoReviewPaper : Paper :=
  { title := "Two", evaluators := ["eva"], primary_area := ["nlp"],
    keywords := [], status := "not_started",
    reviews := [{ text := "first review", metrics := emptyMetrics },
                { text := "second review", metrics := emptyMetrics }] }

/-- A configuration with review shuffling enabled and the default base
seed 42. -/
def shuffleConfig : AppConfig :=
  { fallbackConfig with shuffleReviews := true, shuffleSeed := 42 }

/-! ## Helper lemmas -/

theorem length_modify (f : α → α) (i : ℕ) (l : List α) :
    (l.modify f i).length = l.length := by
  induction l generalizing i with
  | nil => cases i <;> rfl
  | cons x t ih =>
      cases i with
      | zero => simp [List.modify]
      | succ n => simpa [List.modify] using ih n

theorem get?_modify_self (f : α → α) (i : ℕ) (l : List α) :
    (l.modify f i).get? i = (l.get? i).map f := by
  induction l generalizing i with
  | nil => cases i <;> rfl
  | cons x t ih =>
      cases i with
      | zero => simp [List.modify]
      | succ n => simp only [List.modify] at ih ⊢; simpa using ih n

theorem countP_modify (q : α → Bool) (f : α → α) (l : List α) (i : ℕ) (hi : i < l.length) :
    (l.modify f i).countP q + (if q l[i] then 1 else 0) =
      l.countP q + (if q (f l[i]) then 1 else 0) := by
  induction l generalizing i with
  | nil => cases hi
  | cons x t ih =>
      cases i with
      | zero =>
          simp only [List.modify, List.countP_cons, List.getElem_cons_zero]
          by_cases h1 : q x <;> by_cases h2 : q (f x) <;> simp [h1, h2] <;> omega
      | succ n =>
          have hn : n < t.length := Nat.lt_of_succ_lt_succ hi
          have := ih n hn
          simp only [List.modify] at this
          simp only [List.modify, List.countP_cons, List.getElem_cons_succ]
          by_cases h1 : q x <;> simp [h1] <;> omega

/-! ## Claim C4: status characterization -/

/-- C4 counterexample: for a paper with zero reviews every review is
vacuously complete, yet the recomputed status is `not_started`, not
`completed`, so the claimed iff (which includes the zero-review edge
case) fails. -/
theorem C4_zero_reviews_counterexample :
    (∀ r ∈ emptyPaper.reviews, hasAllMetrics r.metrics = true) ∧
    recomputedStatus emptyPaper = "not_started" ∧
    ¬ recomputedStatus emptyPaper = "completed" := by
  refine ⟨?_, by decide, by decide⟩
  intro r hr
  cases hr

/-- C4 (amended): `completed` iff the review list is nonempty and every
review is complete; `not_started` iff no review is complete (hence for a
zero-review paper); `in_progress` iff some but not all reviews are
complete. -/
theorem C4_status_characterization (p : Paper) :
    (recomputedStatus p = "completed" ↔
      (p.reviews ≠ [] ∧ ∀ r ∈ p.reviews, hasAllMetrics r.metrics = true)) ∧
    (recomputedStatus p = "not_started" ↔
      (∀ r ∈ p.reviews, ¬ hasAllMetrics r.metrics = true)) ∧
    (recomputedStatus p = "in_progress" ↔
      ((∃ r ∈ p.reviews, hasAllMetrics r.metrics = true) ∧
        ¬ ∀ r ∈ p.reviews, hasAllMetrics r.metrics = true)) := by
  unfold recomputedStatus updatePaperStatus calculateProgress statusFromProgress
  by_cases hE : p.reviews = []
  · simp only [hE, if_pos rfl]
    refine ⟨?_, ?_, ?_⟩
    · simp
    · simp
    · simp
  · simp only [if_neg hE]
    set c := p.reviews.countP (fun r => hasAllMetrics r.metrics) with hc
    have hle : c ≤ p.reviews.length := List.countP_le_length _
    have hall : (c = p.reviews.length) ↔ ∀ r ∈ p.reviews, hasAllMetrics r.metrics = true :=
      List.countP_eq_length
    have hzero : (c = 0) ↔ ∀ r ∈ p.reviews, ¬ hasAllMetrics r.metrics = true :=
      List.countP_eq_zero
    have hpos : (0 < c) ↔ ∃ r ∈ p.reviews, hasAllMetrics r.metrics = true :=
      List.countP_pos_iff
    have hlenpos : 0 < p.reviews.length := List.length_pos.mpr hE
    by_cases h0 : c = 0
    · rw [if_pos h0]
      refine ⟨?_, ?_, ?_⟩
      · constructor
        · intro h; exact absurd h (by decide)
        · rintro ⟨-, hA⟩
          exact absurd (hall.mpr hA) (by omega)
      · exact ⟨fun _ => hzero.mp h0, fun _ => rfl⟩
      · constructor
        · intro h; exact absurd h (by decide)
        · rintro ⟨hex, -⟩
          exact absurd (hpos.mpr hex) (by omega)
    · by_cases hlt : c < p.reviews.length
      · rw [if_neg h0, if_pos hlt]
        refine ⟨?_, ?_, ?_⟩
        · constructor
          · intro h; exact absurd h (by decide)
          · rintro ⟨-, hA⟩
            exact absurd (hall.mpr hA) (by omega)
        · constructor
          · intro h; exact absurd h (by decide)
          · intro hN
            exact absurd (hzero.mpr hN) h0
        · exact ⟨fun _ => ⟨hpos.mp (by omega), fun hA => absurd (hall.mpr hA) (by omega)⟩,
            fun _ => rfl⟩
      · rw [if_neg h0, if_neg hlt]
        have hceq : c = p.reviews.length := by omega
        refine ⟨?_, ?_, ?_⟩
        · exact ⟨fun _ => ⟨hE, hall.mp hceq⟩, fun _ => rfl⟩
        · constructor
          · intro h; exact absurd h (by decide)
          · intro hN
            exact absurd (hzero.mpr hN) h0
        · constructor
          · intro h; exact absurd h (by decide)
          · rintro ⟨-, hA⟩
            exact absurd (hall.mp hceq) hA

/-! ## Claim C9: clear evaluation -/

/-- C9: after a confirmed clear, the metrics object of that review is
exactly the all-unset record, the total is unchanged, and if the review
was complete the completed count drops by exactly one. -/
theorem C9_clear_resets_metrics (p : Paper) (i : ℕ) (hi : i < p.reviews.length) :
    ((clearEvaluation p i).reviews.get? i).map Review.metrics = some emptyMetrics ∧
    (calculateProgress (clearEvaluation p i)).2 = (calculateProgress p).2 ∧
    (hasAllMetrics (p.reviews[i]).metrics = true →
      (calculateProgress (clearEvaluation p i)).1 + 1 = (calculateProgress p).1) := by
  have hne : p.reviews ≠ [] := by
    intro h
    rw [h] at hi
    cases hi
  have hlen : (clearEvaluation p i).reviews.length = p.reviews.length := by
    simp [clearEvaluation, length_modify]
  have hne' : (clearEvaluation p i).reviews ≠ [] := by
    intro h
    rw [h] at hlen
    exact hne (List.length_eq_zero.mp hlen.symm)
  refine ⟨?_, ?_, ?_⟩
  · have hmod := get?_modify_self (fun r => { r with metrics := emptyMetrics }) i p.reviews
    have hget : p.reviews.get? i = some p.reviews[i] := List.get?_eq_get hi
    show ((p.reviews.modify (fun r => { r with metrics := emptyMetrics }) i).get? i).map
      Review.metrics = some emptyMetrics
    rw [hmod, hget]
    rfl
  · unfold calculateProgress
    rw [if_neg hne', if_neg hne]
    exact hlen
  · intro hcomp
    have hcnt := countP_modify (fun r => hasAllMetrics r.metrics)
      (fun r => { r with metrics := emptyMetrics }) p.reviews i hi
    have hEmpty : hasAllMetrics emptyMetrics = false := by decide
    simp [hcomp, hEmpty] at hcnt
    simp [calculateProgress, if_neg hne, if_neg hne', clearEvaluation]
    omega

/-- C9 witness: the theorem applied to the sample paper with its single
complete review. -/
theorem C9_clear_resets_metrics_witness :
    (0 < samplePaper.reviews.length ∧ hasAllMetrics (samplePaper.reviews[0]).metrics = true) ∧
    (((clearEvaluation samplePaper 0).reviews.get? 0).map Review.metrics = some emptyMetrics ∧
      (calculateProgress (clearEvaluation samplePaper 0)).2 = (calculateProgress samplePaper).2 ∧
      (hasAllMetrics (samplePaper.reviews[0]).metrics = true →
        (calculateProgress (clearEvaluation samplePaper 0)).1 + 1 =
          (calculateProgress samplePaper).1)) :=
  ⟨⟨by decide, by decide⟩, C9_clear_resets_metrics samplePaper 0 (by decide)⟩

/-! ## Claim C3: status recomputation after metric mutations -/

/-- C3: the star and source handlers leave `status` equal to the value
recomputed from the reviews, but the clear-evaluation handler does not:
on the sample paper (cached status `completed`, consistent with its
reviews) clearing the only review leaves `status` at `completed` while
the recomputed value is `not_started`.  The final conjunct exhibits the
violation of the claim. -/
theorem C3_clear_skips_status_recompute :
    (∀ (p : Paper) (i : ℕ) (key : MetricKey) (v : ℕ),
      (starClick p i key v).status = recomputedStatus (starClick p i key v)) ∧
    (∀ (p : Paper) (i : ℕ) (v : String),
      (sourceClick p i v).status = recomputedStatus (sourceClick p i v)) ∧
    recomputedStatus samplePaper = "completed" ∧
    (clearEvaluation samplePaper 0).status = "completed" ∧
    recomputedStatus (clearEvaluation samplePaper 0) = "not_started" ∧
    ¬ (clearEvaluation samplePaper 0).status =
        recomputedStatus (clearEvaluation samplePaper 0) := by
  refine ⟨?_, ?_, by decide, by decide, by decide, by decide⟩
  · intro p i key v
    rfl
  · intro p i v
    rfl

/-! ## Claim C2: configuration fallback -/

/-- C2 counterexample: when the config fetch fails the fallback config
has `showHarmonizedByDefault = true`, so harmonized text IS shown by
default, contradicting the claimed safe default. -/
theorem C2_fallback_shows_harmonized :
    (loadConfig none).showHarmonizedByDefault = true ∧
    ¬ (loadConfig none).showHarmonizedByDefault = false := by
  exact ⟨rfl, by decide⟩

/-- C2 (amended): if the configuration fetch fails the workspace
proceeds with the hard-coded fallback, in which shuffling is disabled
but harmonized text is shown by default (`true`, not `false` as
claimed), and paper rendering is not blocked: the review display order
is the plain enumeration of the stored reviews. -/
theorem C2_fallback_defaults (p : Paper) (paperIndex : ℕ) :
    loadConfig none = fallbackConfig ∧
    fallbackConfig.shuffleReviews = false ∧
    fallbackConfig.showHarmonizedByDefault = true ∧
    displayedOriginalIndices (loadConfig none) paperIndex p =
      p.reviews.enum.map (fun x => some x.1) := by
  refine ⟨rfl, rfl, rfl, ?_⟩
  simp [displayedOriginalIndices, loadConfig, fallbackConfig]

/-! ## Claim C5: filter semantics -/

/-- C5: a paper is kept by `filterPapers` iff it is in the collection and
passes the shared predicate, and the predicate is exactly the claimed
conjunction: each non-empty filter field must be satisfied (evaluators
and areas by set intersection, keywords and title by
every-term-is-a-substring, statuses by membership), and empty fields
pass every paper.  `getFilteredPapers` applies the same predicate to the
enumerated collection. -/
theorem C5_filter_conjunction (f : FilterState) (papers : List Paper) (p : Paper) :
    (p ∈ filterPapers f papers ↔ p ∈ papers ∧ paperPassesFilters f p = true) ∧
    (paperPassesFilters f p = true ↔
      ((f.evaluators ≠ [] → ∃ e ∈ p.evaluators, e ∈ f.evaluators) ∧
       (f.areas ≠ [] → ∃ a ∈ p.primary_area, a ∈ f.areas) ∧
       (f.keywords ≠ [] → ∀ kw ∈ f.keywords,
          ∃ k ∈ p.keywords, strContains (jsToLower k) (jsToLower kw) = true) ∧
       (f.titleKeywords ≠ [] → ∀ kw ∈ f.titleKeywords,
          strContains (jsToLower p.title) (jsToLower kw) = true) ∧
       (f.statuses ≠ [] → p.status ∈ f.statuses))) ∧
    (getFilteredPapers
        (some { evaluators := some f.evaluators, areas := some f.areas,
                keywords := some f.keywords, titleKeywords := some f.titleKeywords,
                statuses := some f.statuses }) papers =
      (papers.enum.filter (fun ip => paperPassesFilters f ip.2)).map Prod.fst) := by
  refine ⟨?_, ?_, rfl⟩
  · simp [filterPapers, List.mem_filter]
  · unfold paperPassesFilters
    split_ifs with h1 h2 h3 h4 h5
    · simp_all [List.any_eq_true, List.length_pos]
    · simp_all [List.any_eq_true, List.length_pos]
    · simp_all [List.all_eq_true, List.any_eq_true, List.length_pos]
    · simp_all [List.all_eq_true, List.length_pos]
    · simp_all [List.length_pos]
    · simp [List.length_pos] at h1 h2 h3 h4 h5
      constructor
      · intro _
        exact ⟨h1, h2, h3, h4, h5⟩
      · intro _
        rfl

/-! ## Claim C10: filtered index list shape -/

/-- C10: for every stored filter blob (absent, partial or full),
`getFilteredPapers` returns a strictly increasing list of in-range
indices into the collection (so prev/next navigation walks the canonical
order and never leaves the collection), and with nothing stored it
returns every index in order. -/
theorem C10_filtered_indices (saved : Option StoredFilters) (papers : List Paper) :
    (getFilteredPapers saved papers).Pairwise (· < ·) ∧
    (∀ i ∈ getFilteredPapers saved papers, i < papers.length) ∧
    getFilteredPapers none papers = List.range papers.length := by
  refine ⟨?_, ?_, rfl⟩ <;>
  · unfold getFilteredPapers
    cases loadFilters saved with
    | none =>
        first
        | exact List.pairwise_lt_range _
        | exact fun i hi => List.mem_range.mp hi
    | some f =>
        have hsub :
            ((papers.enum.filter (fun ip => paperPassesFilters f ip.2)).map Prod.fst).Sublist
              (papers.enum.map Prod.fst) :=
          List.Sublist.map _ (List.filter_sublist _)
        rw [List.enum_map_fst] at hsub
        first
        | exact (List.pairwise_lt_range _).sublist hsub
        | exact fun i hi => List.mem_range.mp (hsub.mem hi)

/-! ## Binary64 rounding: basic lemmas -/

theorem bitlenAux_zero : ∀ fuel, bitlenAux fuel 0 = 0 := by
  intro fuel
  cases fuel <;> simp [bitlenAux]

theorem bitlenAux_spec : ∀ (fuel n : ℕ), n ≤ fuel → n ≠ 0 →
    2 ^ (bitlenAux fuel n - 1) ≤ n ∧ n < 2 ^ bitlenAux fuel n := by
  intro fuel
  induction fuel with
  | zero =>
      intro n hle hne
      omega
  | succ f ih =>
      intro n hle hne
      rw [bitlenAux, if_neg hne]
      by_cases h1 : n / 2 = 0
      · have : n = 1 := by omega
        subst this
        simp [h1, bitlenAux_zero]
      · have hhalf : n / 2 ≤ f := by omega
        obtain ⟨l1, l2⟩ := ih (n / 2) hhalf h1
        set b := bitlenAux f (n / 2) with hb
        have hb1 : 1 ≤ b := by
          by_contra h
          interval_cases b
          · simp at l2
            omega
        constructor
        · have : 2 ^ b ≤ n := by
            have h2 : 2 ^ (b - 1) * 2 ≤ (n / 2) * 2 := Nat.mul_le_mul_right 2 l1
            have h3 : 2 ^ (b - 1) * 2 = 2 ^ b := by
              rw [← pow_succ]
              congr 1
              omega
            omega
          simpa using this
        · have h2 : n / 2 ≤ 2 ^ b - 1 := by omega
          have h3 : n ≤ 2 * (n / 2) + 1 := by omega
          have h4 : n ≤ 2 * (2 ^ b - 1) + 1 := by omega
          have h5 : 2 ^ (b + 1) = 2 * 2 ^ b := by ring
          have h6 : 1 ≤ 2 ^ b := Nat.one_le_two_pow
          omega

theorem bitlen_spec (n : ℕ) (hn : n ≠ 0) :
    2 ^ (bitlen n - 1) ≤ n ∧ n < 2 ^ bitlen n :=
  bitlenAux_spec n n le_rfl hn

theorem pow2_eq_zpow (e : ℤ) : pow2 e = (2 : ℚ) ^ e := by
  unfold pow2
  split_ifs with h
  · rw [show ((2 ^ e.toNat : ℕ) : ℚ) = (2 : ℚ) ^ (e.toNat : ℕ) by push_cast; ring]
    rw [← zpow_natCast]
    congr 1
    omega
  · rw [Rat.divInt_eq_div]
    push_cast
    rw [one_div, ← zpow_natCast, ← zpow_neg]
    congr 1
    omega

theorem pow2_pos (e : ℤ) : 0 < pow2 e := by
  rw [pow2_eq_zpow]
  positivity

theorem binade_spec (q : ℚ) (hq : 0 < q) :
    pow2 (binade q) ≤ q ∧ q < pow2 (binade q + 1) := by
  have hnum : 0 < q.num := Rat.num_pos.mpr hq
  have hNne : q.num.toNat ≠ 0 := by omega
  have hDpos : 0 < q.den := q.pos
  have hnumcast : ((q.num.toNat : ℕ) : ℚ) = ((q.num : ℤ) : ℚ) := by
    have h := Int.toNat_of_nonneg hnum.le
    exact_mod_cast congrArg (fun z : ℤ => (z : ℚ)) h
  have hq_eq : q = ((q.num.toNat : ℕ) : ℚ) / ((q.den : ℕ) : ℚ) := by
    rw [hnumcast]
    exact (Rat.num_div_den q).symm
  obtain ⟨hN1, hN2⟩ := bitlen_spec q.num.toNat hNne
  obtain ⟨hD1, hD2⟩ := bitlen_spec q.den (by omega)
  set N := q.num.toNat with hN
  set D := q.den with hD
  set A := bitlen N with hA
  set B := bitlen D with hB
  have hA1 : 1 ≤ A := by
    by_contra h
    have h0 : A = 0 := by omega
    rw [h0] at hN2
    simp at hN2
    omega
  have hB1 : 1 ≤ B := by
    by_contra h
    have h0 : B = 0 := by omega
    rw [h0] at hD2
    simp at hD2
    omega
  have hcast1 : (2 : ℚ) ^ ((A : ℤ) - 1) = ((2 ^ (A - 1) : ℕ) : ℚ) := by
    push_cast
    rw [← zpow_natCast]
    congr 1
    omega
  have hcast2 : (2 : ℚ) ^ ((B : ℤ) - 1) = ((2 ^ (B - 1) : ℕ) : ℚ) := by
    push_cast
    rw [← zpow_natCast]
    congr 1
    omega
  have hcastA : (2 : ℚ) ^ ((A : ℤ)) = ((2 ^ A : ℕ) : ℚ) := by
    push_cast
    rw [← zpow_natCast]
  have hcastB : (2 : ℚ) ^ ((B : ℤ)) = ((2 ^ B : ℕ) : ℚ) := by
    push_cast
    rw [← zpow_natCast]
  have hNposQ : (0 : ℚ) < (N : ℚ) := by
    have h0 : 0 < N := by omega
    exact_mod_cast h0
  have hDposQ : (0 : ℚ) < (D : ℚ) := by exact_mod_cast hDpos
  have hlow : (2 : ℚ) ^ ((A : ℤ) - (B : ℤ) - 1) < q := by
    have s1 : (2 : ℚ) ^ ((A : ℤ) - 1) ≤ (N : ℚ) := by
      rw [hcast1]
      exact_mod_cast hN1
    have s2 : (D : ℚ) < (2 : ℚ) ^ ((B : ℤ)) := by
      rw [hcastB]
      exact_mod_cast hD2
    have s3 : (2 : ℚ) ^ ((A : ℤ) - 1) / (2 : ℚ) ^ ((B : ℤ)) < (N : ℚ) / (D : ℚ) :=
      div_lt_div' s1 s2 hNposQ hDposQ
    rw [hq_eq]
    calc (2 : ℚ) ^ ((A : ℤ) - (B : ℤ) - 1)
        = (2 : ℚ) ^ ((A : ℤ) - 1) / (2 : ℚ) ^ ((B : ℤ)) := by
          rw [← zpow_sub₀ (by norm_num : (2:ℚ) ≠ 0)]
          congr 1
          ring
      _ < (N : ℚ) / (D : ℚ) := s3
  have hhigh : q < (2 : ℚ) ^ ((A : ℤ) - (B : ℤ) + 1) := by
    have s1 : (N : ℚ) < (2 : ℚ) ^ ((A : ℤ)) := by
      rw [hcastA]
      exact_mod_cast hN2
    have s2 : (2 : ℚ) ^ ((B : ℤ) - 1) ≤ (D : ℚ) := by
      rw [hcast2]
      exact_mod_cast hD1
    have hpB : (0 : ℚ) < (2 : ℚ) ^ ((B : ℤ) - 1) := by positivity
    have hpA : (0 : ℚ) ≤ (2 : ℚ) ^ ((A : ℤ)) := by positivity
    have s3 : (N : ℚ) / (D : ℚ) < (2 : ℚ) ^ ((A : ℤ)) / (2 : ℚ) ^ ((B : ℤ) - 1) :=
      div_lt_div s1 s2 hpA hpB
    rw [hq_eq]
    calc (N : ℚ) / (D : ℚ)
        < (2 : ℚ) ^ ((A : ℤ)) / (2 : ℚ) ^ ((B : ℤ) - 1) := s3
      _ = (2 : ℚ) ^ ((A : ℤ) - (B : ℤ) + 1) := by
          rw [← zpow_sub₀ (by norm_num : (2:ℚ) ≠ 0)]
          congr 1
          ring
  have he0 : ((bitlen q.num.toNat : ℤ) - 1) - ((bitlen q.den : ℤ) - 1) = (A : ℤ) - (B : ℤ) := by
    rw [← hN, ← hD, ← hA, ← hB]
    ring
  simp only [binade, he0]
  split_ifs with hif
  · refine ⟨hif, ?_⟩
    rw [pow2_eq_zpow]
    have : (A : ℤ) - (B : ℤ) + 1 = ((A : ℤ) - (B : ℤ)) + 1 := by ring
    rw [← this]
    exact hhigh
  · constructor
    · rw [pow2_eq_zpow]
      have he : (A : ℤ) - (B : ℤ) - 1 = ((A : ℤ) - (B : ℤ)) - 1 := by ring
      rw [← he]
      exact hlow.le
    · have he : (A : ℤ) - (B : ℤ) - 1 + 1 = (A : ℤ) - (B : ℤ) := by ring
      rw [he]
      exact lt_of_not_le hif

theorem roundNearestEven_err (n : ℚ) : |(roundNearestEven n : ℚ) - n| ≤ 1 / 2 := by
  unfold roundNearestEven
  have h0 : (0 : ℚ) ≤ n - (⌊n⌋ : ℚ) := sub_nonneg.mpr (Int.floor_le n)
  have h1 : n - (⌊n⌋ : ℚ) < 1 := by
    have := Int.lt_floor_add_one n
    linarith
  split_ifs with c1 c2 c3
  · rw [abs_sub_comm, abs_of_nonneg h0]
    linarith
  · push_cast
    rw [abs_of_nonneg (by linarith)]
    linarith
  · push_neg at c1 c2
    rw [abs_sub_comm, abs_of_nonneg h0]
    linarith
  · push_neg at c1 c2
    push_cast
    rw [abs_of_nonneg (by linarith)]
    linarith

theorem roundNearestEven_intCast (z : ℤ) : roundNearestEven (z : ℚ) = z := by
  unfold roundNearestEven
  rw [Int.floor_intCast]
  simp

theorem roundNearestEven_nonneg (n : ℚ) (h : 0 ≤ n) : 0 ≤ roundNearestEven n := by
  unfold roundNearestEven
  have h0 : 0 ≤ ⌊n⌋ := Int.floor_nonneg.mpr h
  split_ifs <;> omega

theorem flQpos_err (q : ℚ) (hq : 0 < q) : |flQpos q - q| ≤ q / 2 ^ 53 := by
  obtain ⟨hb1, hb2⟩ := binade_spec q hq
  unfold flQpos
  set e := binade q with he
  set g := pow2 (e - 52) with hg
  have hgpos : 0 < g := pow2_pos _
  have hgne : g ≠ 0 := ne_of_gt hgpos
  have key : |(roundNearestEven (q / g) : ℚ) * g - q| ≤ g / 2 := by
    have h2 : (roundNearestEven (q / g) : ℚ) * g - q = ((roundNearestEven (q / g) : ℚ) - q / g) * g := by
      field_simp
    rw [h2, abs_mul, abs_of_pos hgpos]
    have h3 := roundNearestEven_err (q / g)
    calc |(roundNearestEven (q / g) : ℚ) - q / g| * g ≤ (1 / 2) * g := by
          apply mul_le_mul_of_nonneg_right h3 hgpos.le
      _ = g / 2 := by ring
  refine key.trans ?_
  have hgval : g = (2 : ℚ) ^ (e - 52) := by rw [hg, pow2_eq_zpow]
  have h4 : g / 2 = (2 : ℚ) ^ (e - 53) := by
    have hstep : (2 : ℚ) ^ (e - 52) = (2 : ℚ) ^ (e - 53) * 2 := by
      rw [← zpow_add_one₀ (by norm_num : (2:ℚ) ≠ 0)]
      congr 1
      ring
    rw [hgval, hstep]
    ring
  rw [h4]
  have h5 : (2 : ℚ) ^ (e - 53) = (2 : ℚ) ^ e * (2 : ℚ) ^ (-53 : ℤ) := by
    rw [← zpow_add₀ (by norm_num : (2:ℚ) ≠ 0)]
    congr 1
  rw [h5]
  have h6 : (2 : ℚ) ^ e ≤ q := by
    rw [← pow2_eq_zpow]
    exact hb1
  have h7 : (0 : ℚ) < (2 : ℚ) ^ (-53 : ℤ) := by positivity
  calc (2 : ℚ) ^ e * (2 : ℚ) ^ (-53 : ℤ) ≤ q * (2 : ℚ) ^ (-53 : ℤ) :=
        mul_le_mul_of_nonneg_right h6 h7.le
    _ = q / 2 ^ 53 := by
        have hz : ((2:ℚ)) ^ (-53 : ℤ) = ((2:ℚ) ^ (53 : ℕ))⁻¹ := by
          rw [zpow_neg]
          congr 1
          rw [← zpow_natCast]
          norm_num
        rw [hz, div_eq_mul_inv]

theorem flQpos_nonneg (q : ℚ) (hq : 0 < q) : 0 ≤ flQpos q := by
  unfold flQpos
  have hgpos : 0 < pow2 (binade q - 52) := pow2_pos _
  have hr : 0 ≤ roundNearestEven (q / pow2 (binade q - 52)) :=
    roundNearestEven_nonneg _ (by positivity)
  have : (0 : ℚ) ≤ (roundNearestEven (q / pow2 (binade q - 52)) : ℚ) := by exact_mod_cast hr
  exact mul_nonneg this hgpos.le

theorem flQ_err (q : ℚ) : |flQ q - q| ≤ |q| / 2 ^ 53 := by
  unfold flQ
  split_ifs with h1 h2
  · subst h1
    simp
  · rw [abs_of_pos h2]
    exact flQpos_err q h2
  · have hneg : 0 < -q := by
      rcases lt_trichotomy q 0 with h | h | h
      · linarith
      · exact absurd h h1
      · exact absurd h h2
    have := flQpos_err (-q) hneg
    rw [abs_of_neg (by linarith : q < 0)]
    have hre : -flQpos (-q) - q = -(flQpos (-q) - (-q)) := by ring
    rw [hre, abs_neg]
    exact this

theorem flQ_nonneg (q : ℚ) (h : 0 ≤ q) : 0 ≤ flQ q := by
  unfold flQ
  split_ifs with h1 h2
  · norm_num
  · exact flQpos_nonneg q h2
  · exact absurd (lt_of_le_of_ne h (Ne.symm h1)) h2

theorem binade_le_52 (z : ℤ) (hz : 0 < z) (h : z < 2 ^ 53) : binade (z : ℚ) ≤ 52 := by
  by_contra hcon
  push_neg at hcon
  have h53 : (53 : ℤ) ≤ binade (z : ℚ) := by omega
  obtain ⟨hb1, -⟩ := binade_spec (z : ℚ) (by exact_mod_cast hz)
  rw [pow2_eq_zpow] at hb1
  have hm : (2 : ℚ) ^ (53 : ℤ) ≤ (2 : ℚ) ^ (binade (z : ℚ)) :=
    zpow_le_zpow_right₀ one_le_two h53
  have hc : (2 : ℚ) ^ (53 : ℤ) ≤ (z : ℚ) := hm.trans hb1
  have hzc : (2 : ℚ) ^ (53 : ℤ) = ((2 ^ 53 : ℤ) : ℚ) := by
    rw [show (53 : ℤ) = ((53 : ℕ) : ℤ) from rfl, zpow_natCast]
    push_cast
    norm_num
  rw [hzc] at hc
  have : (2 ^ 53 : ℤ) ≤ z := by exact_mod_cast hc
  omega

theorem binade_ge_53 (z : ℤ) (hz : 0 < z) (h : 2 ^ 53 ≤ z) : 53 ≤ binade (z : ℚ) := by
  obtain ⟨-, hb2⟩ := binade_spec (z : ℚ) (by exact_mod_cast hz)
  rw [pow2_eq_zpow] at hb2
  have hc : ((2 ^ 53 : ℤ) : ℚ) ≤ (z : ℚ) := by exact_mod_cast h
  have hzc : (2 : ℚ) ^ (53 : ℤ) = ((2 ^ 53 : ℤ) : ℚ) := by
    rw [show (53 : ℤ) = ((53 : ℕ) : ℤ) from rfl, zpow_natCast]
    push_cast
    norm_num
  have hc2 : (2 : ℚ) ^ (53 : ℤ) ≤ (z : ℚ) := by rw [hzc]; exact hc
  have hlt : (2 : ℚ) ^ (53 : ℤ) < (2 : ℚ) ^ (binade (z : ℚ) + 1) := lt_of_le_of_lt hc2 hb2
  have := (zpow_lt_zpow_iff_right₀ one_lt_two).mp hlt
  omega

theorem flQpos_intCast_small (z : ℤ) (hz : 0 < z) (h : z < 2 ^ 53) : flQpos (z : ℚ) = (z : ℚ) := by
  have he52 : binade (z : ℚ) ≤ 52 := binade_le_52 z hz h
  unfold flQpos
  set e := binade (z : ℚ) with he
  have harg : (z : ℚ) / pow2 (e - 52) = ((z * 2 ^ ((52 - e).toNat) : ℤ) : ℚ) := by
    rw [pow2_eq_zpow, div_eq_mul_inv, ← zpow_neg]
    push_cast
    congr 1
    rw [← zpow_natCast]
    congr 1
    omega
  rw [harg, roundNearestEven_intCast, pow2_eq_zpow]
  push_cast
  rw [show ((2 : ℚ) ^ ((52 - e).toNat : ℕ)) = (2 : ℚ) ^ ((52 : ℤ) - e) by
        rw [← zpow_natCast]; congr 1; omega]
  rw [mul_assoc, ← zpow_add₀ (by norm_num : (2:ℚ) ≠ 0)]
  rw [show (52 : ℤ) - e + (e - 52) = 0 by ring, zpow_zero, mul_one]

theorem flQ_intCast_small (z : ℤ) (h : z.natAbs < 2 ^ 53) : flQ (z : ℚ) = (z : ℚ) := by
  unfold flQ
  split_ifs with h1 h2
  · exact h1.symm
  · have hz : 0 < z := by exact_mod_cast h2
    exact flQpos_intCast_small z hz (by omega)
  · have hz : z < 0 := by
      rcases lt_trichotomy z 0 with hc | hc | hc
      · exact hc
      · subst hc
        simp at h1
      · exact absurd (by exact_mod_cast hc) h2
    have hneg : -(z : ℚ) = ((-z : ℤ) : ℚ) := by push_cast; ring
    rw [hneg, flQpos_intCast_small (-z) (by omega) (by omega)]
    push_cast
    ring

theorem flQpos_intCast_large (z : ℤ) (hz : 0 < z) (h : 2 ^ 53 ≤ z) :
    ∃ m : ℤ, flQpos (z : ℚ) = ((2 * m : ℤ) : ℚ) := by
  have he53 : 53 ≤ binade (z : ℚ) := binade_ge_53 z hz h
  unfold flQpos
  set e := binade (z : ℚ) with he
  refine ⟨roundNearestEven ((z : ℚ) / pow2 (e - 52)) * 2 ^ ((e - 53).toNat), ?_⟩
  rw [pow2_eq_zpow]
  push_cast
  rw [show ((2 : ℚ) ^ ((e - 53).toNat : ℕ)) = (2 : ℚ) ^ (e - 53) by
        rw [← zpow_natCast]; congr 1; omega]
  rw [show (2 : ℚ) ^ (e - 52) = (2 : ℚ) ^ (e - 53) * 2 by
        rw [← zpow_add_one₀ (by norm_num : (2:ℚ) ≠ 0)]
        congr 1
        ring]
  ring

theorem flQ_intCast_large_even (z : ℤ) (h : 2 ^ 53 ≤ z.natAbs) :
    ∃ m : ℤ, flQ (z : ℚ) = ((2 * m : ℤ) : ℚ) ∧ 2 ^ 53 ≤ (2 * m).natAbs := by
  have key : ∀ m : ℤ, flQ (z : ℚ) = ((2 * m : ℤ) : ℚ) → 2 ^ 53 ≤ (2 * m).natAbs := by
    intro m hm
    have herr := flQ_err (z : ℚ)
    rw [hm] at herr
    have hdiff : ((2 * m : ℤ) : ℚ) - (z : ℚ) = ((2 * m - z : ℤ) : ℚ) := by push_cast; ring
    rw [hdiff] at herr
    have habs1 : |((2 * m - z : ℤ) : ℚ)| = (((2 * m - z).natAbs : ℕ) : ℚ) := by
      push_cast [Int.cast_natAbs]
      norm_num
    have habs2 : |(z : ℚ)| = ((z.natAbs : ℕ) : ℚ) := by
      push_cast [Int.cast_natAbs]
      norm_num
    rw [habs1, habs2] at herr
    have hineq : (2 * m - z).natAbs * 2 ^ 53 ≤ z.natAbs := by
      have hq := (le_div_iff (by positivity : (0:ℚ) < 2 ^ 53)).mp herr
      exact_mod_cast hq
    omega
  rcases lt_trichotomy z 0 with hz | hz | hz
  · have hneg : flQ (z : ℚ) = -(flQpos (-(z : ℚ))) := by
      unfold flQ
      rw [if_neg (by exact_mod_cast hz.ne), if_neg (by exact_mod_cast not_lt.mpr hz.le)]
    have hcast : -(z : ℚ) = ((-z : ℤ) : ℚ) := by push_cast; ring
    obtain ⟨m, hm⟩ := flQpos_intCast_large (-z) (by omega) (by omega)
    rw [hcast, hm] at hneg
    refine ⟨-m, ?_, ?_⟩
    · rw [hneg]
      push_cast
      ring
    · apply key
      rw [hneg]
      push_cast
      ring
  · subst hz
    simp at h
  · obtain ⟨m, hm⟩ := flQpos_intCast_large z hz (by omega)
    have hpos : flQ (z : ℚ) = flQpos (z : ℚ) := by
      unfold flQ
      rw [if_neg (by exact_mod_cast hz.ne'), if_pos (by exact_mod_cast hz)]
    refine ⟨m, hpos.trans hm, key m (hpos.trans hm)⟩

theorem even_emod_ne_top (w : ℤ) : (2 * w) % 2147483648 ≠ 2147483647 := by
  omega

theorem shifted_small_emod_ne_top (w : ℤ) (h1 : 2 ^ 53 ≤ (2 * w).natAbs)
    (h2 : (2 * w + 12345).natAbs < 2 ^ 53) :
    (2 * w + 12345) % 2147483648 ≠ 2147483647 := by
  obtain ⟨d, hdef, hd1, hd2⟩ :
      ∃ d, 2 * w + 12345 = (-9007199254740992 : ℤ) + d ∧ 1 ≤ d ∧ d ≤ 12345 := by
    refine ⟨2 * w + 12345 + 9007199254740992, by ring, by omega, by omega⟩
  rw [hdef, show (-9007199254740992 : ℤ) + d = d + 2147483648 * (-4194304) by ring,
    Int.add_mul_emod_self_left, Int.emod_eq_of_lt (by omega) (by omega)]
  omega

theorem exact_lcg_ne_top (s : ℤ) (hA : (s * 1103515245).natAbs < 9007199254740992) :
    (s * 1103515245 + 12345) % 2147483648 ≠ 2147483647 := by
  have hsb : -8162279 < s ∧ s < 8162279 := by omega
  intro heq
  have h1 : s * 1103515245 + 12345 ≡ 2147483647 [ZMOD 2147483648] := by
    unfold Int.ModEq
    rw [heq]
    decide
  have h2 : s * 1103515245 ≡ 2147471302 [ZMOD 2147483648] := by
    have h3 := h1.sub_right 12345
    norm_num at h3
    exact h3
  have h5 : (1857678181 * 1103515245 : ℤ) ≡ 1 [ZMOD 2147483648] := by decide
  have hA1 : s ≡ s * (1857678181 * 1103515245) [ZMOD 2147483648] := by
    have h6 := h5.symm.mul_left s
    simpa using h6
  have hA2 : s * (1857678181 * 1103515245) = 1857678181 * (s * 1103515245) := by ring
  have hA3 : s ≡ 1857678181 * 2147471302 [ZMOD 2147483648] :=
    hA1.trans (hA2 ▸ h2.mul_left 1857678181)
  have hA4 : (1857678181 * 2147471302 : ℤ) ≡ 230538014 [ZMOD 2147483648] := by decide
  have hfin : s ≡ 230538014 [ZMOD 2147483648] := hA3.trans hA4
  obtain ⟨k, hk⟩ := hfin.dvd
  clear heq h1 h2 h5 hA1 hA2 hA3 hA4 hfin hA
  omega

theorem jsLCG_nonneg (s : ℤ) : 0 ≤ jsLCG s :=
  Int.emod_nonneg _ (by norm_num)

theorem jsLCG_lt (s : ℤ) : jsLCG s < 2147483648 :=
  Int.emod_lt_of_pos _ (by norm_num)

/-- The generator state after an update is never `0x7fffffff`: in the
exact regime the required residue lies outside the exactly representable
seed range, and whenever a product or sum is actually rounded the result
is even while `0x7fffffff` is odd. -/
theorem jsLCG_ne_top (s : ℤ) : jsLCG s ≠ 2147483647 := by
  unfold jsLCG
  have hprod : (s : ℚ) * 1103515245 = ((s * 1103515245 : ℤ) : ℚ) := by push_cast; ring
  rw [hprod]
  by_cases hA : (s * 1103515245).natAbs < 2 ^ 53
  · rw [flQ_intCast_small _ hA]
    have hsum : ((s * 1103515245 : ℤ) : ℚ) + 12345 = ((s * 1103515245 + 12345 : ℤ) : ℚ) := by
      push_cast; ring
    rw [hsum]
    by_cases hB : (s * 1103515245 + 12345).natAbs < 2 ^ 53
    · rw [flQ_intCast_small _ hB, Int.floor_intCast]
      exact exact_lcg_ne_top s (by omega)
    · push_neg at hB
      obtain ⟨m, hm, hmag⟩ := flQ_intCast_large_even _ hB
      rw [hm, Int.floor_intCast]
      exact even_emod_ne_top m
  · push_neg at hA
    obtain ⟨m, hm, hmag⟩ := flQ_intCast_large_even _ hA
    rw [hm]
    have hsum : ((2 * m : ℤ) : ℚ) + 12345 = ((2 * m + 12345 : ℤ) : ℚ) := by push_cast; ring
    rw [hsum]
    by_cases hB : (2 * m + 12345).natAbs < 2 ^ 53
    · rw [flQ_intCast_small _ hB, Int.floor_intCast]
      exact shifted_small_emod_ne_top m hmag hB
    · push_neg at hB
      obtain ⟨m2, hm2, hmag2⟩ := flQ_intCast_large_even _ hB
      rw [hm2, Int.floor_intCast]
      exact even_emod_ne_top m2

/-- Bound for `Math.floor(rng() * k)`: for any reachable state (which is
never `0x7fffffff`), the drawn index is at most `k - 1`. -/
theorem jsDrawJ_le (state : ℤ) (h0 : 0 ≤ state) (h1 : state ≤ 2147483646)
    (k : ℕ) (hk : 1 ≤ k) : jsDrawJ state k ≤ k - 1 := by
  unfold jsDrawJ
  set q1 : ℚ := (state : ℚ) / 2147483647 with hq1def
  have hq1a : 0 ≤ q1 := by
    apply div_nonneg _ (by norm_num)
    exact_mod_cast h0
  have hq1b : q1 ≤ 2147483646 / 2147483647 := by
    apply div_le_div_of_nonneg_right ?_ (by norm_num)
    exact_mod_cast h1
  set u : ℚ := flQ q1 with hudef
  have hu0 : 0 ≤ u := flQ_nonneg _ hq1a
  have hu1 : u ≤ q1 * (1 + 1 / 2 ^ 53) := by
    have herr := (abs_le.mp (flQ_err q1)).2
    rw [abs_of_nonneg hq1a] at herr
    have : u - q1 ≤ q1 / 2 ^ 53 := herr
    nlinarith [this]
  have hkQ : (1 : ℚ) ≤ (k : ℚ) := by exact_mod_cast hk
  have hkpos : (0 : ℚ) < (k : ℚ) := by linarith
  have huk0 : 0 ≤ u * (k : ℚ) := mul_nonneg hu0 hkpos.le
  set w : ℚ := flQ (u * (k : ℚ)) with hwdef
  have hw1 : w ≤ u * (k : ℚ) * (1 + 1 / 2 ^ 53) := by
    have herr := (abs_le.mp (flQ_err (u * (k : ℚ)))).2
    rw [abs_of_nonneg huk0] at herr
    nlinarith [herr]
  have hB : u ≤ (2147483646 / 2147483647 : ℚ) * (1 + 1 / 2 ^ 53) := by
    calc u ≤ q1 * (1 + 1 / 2 ^ 53) := hu1
      _ ≤ (2147483646 / 2147483647 : ℚ) * (1 + 1 / 2 ^ 53) := by
          apply mul_le_mul_of_nonneg_right hq1b
          norm_num
  have hnum : (2147483646 / 2147483647 : ℚ) * (1 + 1 / 2 ^ 53) * (1 + 1 / 2 ^ 53) < 1 := by
    norm_num
  have hwk : w < (k : ℚ) := by
    have step1 : w ≤ u * (1 + 1 / 2 ^ 53) * (k : ℚ) := by
      calc w ≤ u * (k : ℚ) * (1 + 1 / 2 ^ 53) := hw1
        _ = u * (1 + 1 / 2 ^ 53) * (k : ℚ) := by ring
    have step2 : u * (1 + 1 / 2 ^ 53) ≤
        (2147483646 / 2147483647 : ℚ) * (1 + 1 / 2 ^ 53) * (1 + 1 / 2 ^ 53) := by
      apply mul_le_mul_of_nonneg_right hB
      norm_num
    have step3 : u * (1 + 1 / 2 ^ 53) * (k : ℚ) < 1 * (k : ℚ) := by
      apply mul_lt_mul_of_pos_right _ hkpos
      exact lt_of_le_of_lt step2 hnum
    linarith
  have hfloor : ⌊w⌋ < (k : ℤ) := by
    rw [Int.floor_lt]
    push_cast
    exact hwk
  omega

/-! ## The shuffle is a permutation -/

theorem cons_set_perm (t : List α) (j : ℕ) (x : α) (hj : j < t.length) :
    (t[j] :: t.set j x).Perm (x :: t) := by
  induction t generalizing j with
  | nil => cases hj
  | cons y t' ih =>
      cases j with
      | zero => simpa using List.Perm.swap x y t'
      | succ m =>
          have hm : m < t'.length := Nat.lt_of_succ_lt_succ (by simpa using hj)
          simp only [List.getElem_cons_succ, List.set_cons_succ]
          exact (List.Perm.swap y (t'[m]) (t'.set m x)).trans
            (((ih m hm).cons y).trans (List.Perm.swap x y t'))

theorem set_set_swap_perm (l : List α) (i j : ℕ) (hi : i < l.length) (hj : j < l.length) :
    ((l.set i l[j]).set j l[i]).Perm l := by
  induction l generalizing i j with
  | nil => cases hi
  | cons x t ih =>
      cases i with
      | zero =>
          cases j with
          | zero => simp
          | succ m =>
              have hm : m < t.length := Nat.lt_of_succ_lt_succ (by simpa using hj)
              simp only [List.getElem_cons_succ, List.getElem_cons_zero,
                List.set_cons_zero, List.set_cons_succ]
              exact cons_set_perm t m x hm
      | succ n =>
          have hn : n < t.length := Nat.lt_of_succ_lt_succ (by simpa using hi)
          cases j with
          | zero =>
              simp only [List.getElem_cons_succ, List.getElem_cons_zero,
                List.set_cons_zero, List.set_cons_succ]
              exact cons_set_perm t n x hn
          | succ m =>
              have hm : m < t.length := Nat.lt_of_succ_lt_succ (by simpa using hj)
              simp only [List.getElem_cons_succ, List.set_cons_succ]
              exact ((ih n m hn hm).cons x)

theorem jsSwap_eq_set_set (l : List (Option α)) (i j : ℕ) (hi : i < l.length)
    (hj : j < l.length) : jsSwap l i j = (l.set i l[j]).set j l[i] := by
  unfold jsSwap jsRead jsWrite
  have hgi : l.getD i none = l[i] := List.getD_eq_getElem l none hi
  have hgj : l.getD j none = l[j] := List.getD_eq_getElem l none hj
  rw [hgi, hgj, if_pos hi, if_pos (by simpa using hj)]

theorem jsSwap_perm (l : List (Option α)) (i j : ℕ) (hi : i < l.length)
    (hj : j < l.length) : (jsSwap l i j).Perm l := by
  rw [jsSwap_eq_set_set l i j hi hj]
  exact set_set_swap_perm l i j hi hj

/-- The state threaded through the loop stays in `[0, 2147483646]` after
each update. -/
theorem jsLCG_range (s : ℤ) : 0 ≤ jsLCG s ∧ jsLCG s ≤ 2147483646 := by
  have h1 := jsLCG_nonneg s
  have h2 := jsLCG_lt s
  have h3 := jsLCG_ne_top s
  omega

theorem fisherYatesLoop_perm :
    ∀ (i : ℕ) (l : List (Option α)) (st : ℤ), i < l.length →
      (fisherYatesLoop l st i).Perm l := by
  intro i
  induction i with
  | zero =>
      intro l st _
      exact List.Perm.refl l
  | succ i0 ih =>
      intro l st h
      obtain ⟨hs0, hs1⟩ := jsLCG_range st
      have hj : jsDrawJ (jsLCG st) (i0 + 2) ≤ i0 + 1 := by
        have := jsDrawJ_le (jsLCG st) hs0 hs1 (i0 + 2) (by omega)
        omega
      have hjlt : jsDrawJ (jsLCG st) (i0 + 2) < l.length := lt_of_le_of_lt hj h
      have hswap : (jsSwap l (i0 + 1) (jsDrawJ (jsLCG st) (i0 + 2))).Perm l :=
        jsSwap_perm l _ _ h hjlt
      have hlen : (jsSwap l (i0 + 1) (jsDrawJ (jsLCG st) (i0 + 2))).length = l.length := by
        rw [jsSwap_eq_set_set l _ _ h hjlt]
        simp
      show (fisherYatesLoop (jsSwap l (i0 + 1) (jsDrawJ (jsLCG st) (i0 + 2))) (jsLCG st) i0).Perm l
      exact (ih _ (jsLCG st) (by omega)).trans hswap

theorem shuffleWithSeed_perm (l : List (Option α)) (seed : ℤ) :
    (shuffleWithSeed l seed).Perm l := by
  unfold shuffleWithSeed
  rcases Nat.eq_zero_or_pos l.length with h | h
  · have h0 : l.length - 1 = 0 := by omega
    rw [h0]
    exact List.Perm.refl l
  · exact fisherYatesLoop_perm _ l seed (by omega)

theorem fisherYatesDraws_spec :
    ∀ (i : ℕ) (st : ℤ), ∀ d ∈ fisherYatesDraws st i, d.2 ≤ d.1 ∧ 1 ≤ d.1 ∧ d.1 ≤ i := by
  intro i
  induction i with
  | zero =>
      intro st d hd
      cases hd
  | succ i0 ih =>
      intro st d hd
      obtain ⟨hs0, hs1⟩ := jsLCG_range st
      rcases List.mem_cons.mp hd with heq | htail
      · subst heq
        refine ⟨?_, by omega, le_rfl⟩
        have := jsDrawJ_le (jsLCG st) hs0 hs1 (i0 + 2) (by omega)
        omega
      · obtain ⟨ha, hb, hc⟩ := ih (jsLCG st) d htail
        exact ⟨ha, hb, by omega⟩

theorem fisherYatesLoop_eq_foldl :
    ∀ (i : ℕ) (l : List (Option α)) (st : ℤ),
      fisherYatesLoop l st i =
        (fisherYatesDraws st i).foldl (fun acc d => jsSwap acc d.1 d.2) l := by
  intro i
  induction i with
  | zero =>
      intro l st
      rfl
  | succ i0 ih =>
      intro l st
      show fisherYatesLoop (jsSwap l (i0 + 1) (jsDrawJ (jsLCG st) (i0 + 2))) (jsLCG st) i0 = _
      rw [ih]
      rfl

/-! ## Claim C6: the shuffle is a seeded backward Fisher-Yates
permutation -/

/-- C6: for every input array and every integer seed, `shuffleWithSeed`
returns a permutation of its input (same length, same multiset), it is
produced by the backward Fisher-Yates walk over the drawn `(i, j)`
pairs, and every draw satisfies `j ≤ i < length` (so every read and
swap index is in bounds).  The in-bounds property holds for every seed
because a rounded product or sum is always even while `0x7fffffff` is
odd, so the generator state never reaches `0x7fffffff` and `rng()` never
returns exactly 1. -/
theorem C6_shuffle_is_permutation (l : List (Option α)) (seed : ℤ) :
    (shuffleWithSeed l seed).Perm l ∧
    (shuffleWithSeed l seed).length = l.length ∧
    shuffleWithSeed l seed =
      (shuffleDraws seed l.length).foldl (fun acc d => jsSwap acc d.1 d.2) l ∧
    (∀ d ∈ shuffleDraws seed l.length, d.2 ≤ d.1 ∧ 1 ≤ d.1 ∧ d.1 < l.length) := by
  have hperm := shuffleWithSeed_perm l seed
  refine ⟨hperm, hperm.length_eq, ?_, ?_⟩
  · unfold shuffleWithSeed shuffleDraws
    exact fisherYatesLoop_eq_foldl _ l seed
  · intro d hd
    obtain ⟨h1, h2, h3⟩ := fisherYatesDraws_spec (l.length - 1) seed d hd
    exact ⟨h1, h2, by omega⟩

/-! ## Claim C7: the shuffle is deterministic and does not mutate its
input -/

/-- C7: two invocations of `shuffleWithSeed` with equal seeds and equal
input sequences produce identical output order, and the argument array
is left unmodified by the call (the walk mutates only the copy
`[...array]`). -/
theorem C7_shuffle_deterministic (a1 a2 : List (Option α)) (s1 s2 : ℤ)
    (ha : a1 = a2) (hs : s1 = s2) :
    shuffleWithSeed a1 s1 = shuffleWithSeed a2 s2 ∧
    (shuffleWithSeedRun a1 s1).2 = a1 := by
  subst ha
  subst hs
  exact ⟨rfl, rfl⟩

/-- C7 witness at a concrete array and seed. -/
theorem C7_shuffle_deterministic_witness :
    shuffleWithSeed ([some 0, some 1] : List (Option ℕ)) 42 =
      shuffleWithSeed ([some 0, some 1] : List (Option ℕ)) 42 ∧
    (shuffleWithSeedRun ([some 0, some 1] : List (Option ℕ)) 42).2 = [some 0, some 1] :=
  C7_shuffle_deterministic [some 0, some 1] [some 0, some 1] 42 42 rfl rfl

/-! ## Claim C1: metric controls bind to the display position, not the
original review index -/

/-- C1: with shuffling enabled (base seed 42) paper index 1 shuffles its
two reviews into display order [original 1, original 0]; clicking the
5-star coverage control rendered at display position 0 then writes
`reviews[0]` (the review NOT displayed there) and leaves `reviews[1]`
(the review that IS displayed there) untouched, because `renderReviews`
drops `originalIndex` and every `data-review` attribute carries the
display position. -/
theorem C1_star_binding_uses_display_position :
    shuffleConfig.shuffleReviews = true ∧
    displayedOriginalIndices shuffleConfig 1 twoReviewPaper = [some 1, some 0] ∧
    ((starClick twoReviewPaper 0 MetricKey.coverage 5).reviews.get? 0).map
        (fun r => r.metrics.coverage) = some 5 ∧
    ((starClick twoReviewPaper 0 MetricKey.coverage 5).reviews.get? 1).map
        (fun r => r.metrics.coverage) = some 0 ∧
    metricControlValue (starClick twoReviewPaper 0 MetricKey.coverage 5) 0
        MetricKey.coverage = some 5 := by
  refine ⟨rfl, ?_, by decide, by decide, by decide⟩
  with_unfolding_all decide

/-! ## Claim C8: debounced comment saves -/

theorem filter_swap (p q : α → Bool) (l : List α) :
    (l.filter p).filter q = (l.filter q).filter p := by
  rw [List.filter_filter, List.filter_filter]
  congr 1
  funext a
  exact Bool.and_comm _ _

theorem pairwise_ne_ids {l : List (ℕ × ℕ × ℕ)}
    (hpw : List.Pairwise (fun a b => a.1 ≠ b.1) l)
    {a b : ℕ × ℕ × ℕ} (ha : a ∈ l) (hb : b ∈ l) (hab : a ≠ b) : a.1 ≠ b.1 := by
  have hsym : Symmetric (fun a b : ℕ × ℕ × ℕ => a.1 ≠ b.1) := fun x y h => h.symm
  exact List.Pairwise.forall hsym hpw ha hb hab

/-- The single entry of a review filter belongs to the timer table. -/
theorem filter_review_mem {l : List (ℕ × ℕ × ℕ)} {r id dl : ℕ}
    (h : l.filter (fun e => e.2.1 == r) = [(id, r, dl)]) : (id, r, dl) ∈ l := by
  have : (id, r, dl) ∈ l.filter (fun e => e.2.1 == r) := by
    rw [h]
    exact List.mem_singleton.mpr rfl
  exact List.mem_of_mem_filter this

/-- Cancelling the timer id named in a review slot empties that review
filter; other review filters keep their single entry. -/
theorem cancel_keeps_other {l : List (ℕ × ℕ × ℕ)} {r r' id id' dl : ℕ}
    (hpw : List.Pairwise (fun a b => a.1 ≠ b.1) l)
    (hr : l.filter (fun e => e.2.1 == r) = [(id, r, dl)])
    (hr' : ∃ dl', l.filter (fun e => e.2.1 == r') = [(id', r', dl')])
    (hne : r ≠ r') :
    (l.filter (fun e => decide (e.1 ≠ id'))).filter (fun e => e.2.1 == r) = [(id, r, dl)] := by
  obtain ⟨dl', hr'⟩ := hr'
  have hmem : (id, r, dl) ∈ l := filter_review_mem hr
  have hmem' : (id', r', dl') ∈ l := filter_review_mem hr'
  have hids : id ≠ id' := by
    have : ((id, r, dl) : ℕ × ℕ × ℕ) ≠ (id', r', dl') := by
      intro hcon
      exact hne (congrArg (fun p : ℕ × ℕ × ℕ => p.2.1) hcon)
    exact pairwise_ne_ids hpw hmem hmem' this
  rw [filter_swap, hr]
  simp [hids]

/-- Cancelling the id in the slot of the same review empties its
filter. -/
theorem cancel_own {l : List (ℕ × ℕ × ℕ)} {r id dl : ℕ}
    (hr : l.filter (fun e => e.2.1 == r) = [(id, r, dl)]) :
    (l.filter (fun e => decide (e.1 ≠ id))).filter (fun e => e.2.1 == r) = [] := by
  rw [filter_swap, hr]
  simp

/-- Timer-table part of the invariant, shared by the input and blur
cases: after cancelling the id held in a slot, bounds and distinctness
survive. -/
theorem wsStep_inv (s : WorkspaceState) (e : WSEvent) (hinv : WSInv s) :
    WSInv (wsStep s e) := by
  obtain ⟨hbound, hpw, hslots⟩ := hinv
  cases e with
  | input r' text t =>
      cases hsl : s.slot r' with
      | some id' =>
          have hr'0 := hslots r'
          rw [hsl] at hr'0
          obtain ⟨dl', hdl'⟩ := hr'0
          refine ⟨?_, ?_, ?_⟩
          · intro x hx
            simp only [wsStep, hsl] at hx
            rcases List.mem_append.mp hx with hx1 | hx2
            · exact Nat.lt_succ_of_lt (hbound x (List.mem_of_mem_filter hx1))
            · rw [List.mem_singleton.mp hx2]
              exact Nat.lt_succ_self _
          · simp only [wsStep, hsl]
            rw [List.pairwise_append]
            refine ⟨hpw.filter _, List.pairwise_singleton _ _, ?_⟩
            intro a ha b hb
            rw [List.mem_singleton.mp hb]
            have : a.1 < s.nextId := hbound a (List.mem_of_mem_filter ha)
            omega
          · intro r
            simp only [wsStep, hsl]
            by_cases hrr : r = r'
            · subst hrr
              rw [if_pos rfl]
              refine ⟨t + 600, ?_⟩
              rw [List.filter_append, cancel_own hdl']
              simp
            · rw [if_neg hrr]
              have hnew : List.filter (fun e => e.2.1 == r) [(s.nextId, r', t + 600)] = [] := by
                simp [Ne.symm hrr]
              cases hslr : s.slot r with
              | some id =>
                  have hr0 := hslots r
                  rw [hslr] at hr0
                  obtain ⟨dl, hdl⟩ := hr0
                  refine ⟨dl, ?_⟩
                  rw [List.filter_append, hnew, List.append_nil]
                  exact cancel_keeps_other hpw hdl ⟨dl', hdl'⟩ hrr
              | none =>
                  have hr0 := hslots r
                  rw [hslr] at hr0
                  rw [List.filter_append, hnew, List.append_nil, filter_swap, hr0]
                  rfl
      | none =>
          refine ⟨?_, ?_, ?_⟩
          · intro x hx
            simp only [wsStep, hsl] at hx
            rcases List.mem_append.mp hx with hx1 | hx2
            · exact Nat.lt_succ_of_lt (hbound x hx1)
            · rw [List.mem_singleton.mp hx2]
              exact Nat.lt_succ_self _
          · simp only [wsStep, hsl]
            rw [List.pairwise_append]
            refine ⟨hpw, List.pairwise_singleton _ _, ?_⟩
            intro a ha b hb
            rw [List.mem_singleton.mp hb]
            have : a.1 < s.nextId := hbound a ha
            omega
          · intro r
            simp only [wsStep, hsl]
            by_cases hrr : r = r'
            · subst hrr
              rw [if_pos rfl]
              refine ⟨t + 600, ?_⟩
              have hr0 := hslots r
              rw [hsl] at hr0
              rw [List.filter_append, hr0]
              simp
            · rw [if_neg hrr]
              have hnew : List.filter (fun e => e.2.1 == r) [(s.nextId, r', t + 600)] = [] := by
                simp [Ne.symm hrr]
              cases hslr : s.slot r with
              | some id =>
                  have hr0 := hslots r
                  rw [hslr] at hr0
                  obtain ⟨dl, hdl⟩ := hr0
                  refine ⟨dl, ?_⟩
                  rw [List.filter_append, hnew, List.append_nil, hdl]
              | none =>
                  have hr0 := hslots r
                  rw [hslr] at hr0
                  rw [List.filter_append, hnew, List.append_nil, hr0]
  | blur r' text t =>
      cases hsl : s.slot r' with
      | some id' =>
          have hr'0 := hslots r'
          rw [hsl] at hr'0
          obtain ⟨dl', hdl'⟩ := hr'0
          refine ⟨?_, ?_, ?_⟩
          · intro x hx
            simp only [wsStep, hsl] at hx
            exact hbound x (List.mem_of_mem_filter hx)
          · simp only [wsStep, hsl]
            exact hpw.filter _
          · intro r
            simp only [wsStep, hsl]
            by_cases hrr : r = r'
            · subst hrr
              rw [if_pos rfl]
              exact cancel_own hdl'
            · rw [if_neg hrr]
              cases hslr : s.slot r with
              | some id =>
                  have hr0 := hslots r
                  rw [hslr] at hr0
                  obtain ⟨dl, hdl⟩ := hr0
                  exact ⟨dl, cancel_keeps_other hpw hdl ⟨dl', hdl'⟩ hrr⟩
              | none =>
                  have hr0 := hslots r
                  rw [hslr] at hr0
                  rw [filter_swap, hr0]
                  rfl
      | none =>
          refine ⟨?_, ?_, ?_⟩
          · intro x hx
            simp only [wsStep, hsl] at hx
            exact hbound x hx
          · simp only [wsStep, hsl]
            exact hpw
          · intro r
            simp only [wsStep, hsl]
            by_cases hrr : r = r'
            · subst hrr
              rw [if_pos rfl]
              have hr0 := hslots r
              rw [hsl] at hr0
              exact hr0
            · rw [if_neg hrr]
              cases hslr : s.slot r with
              | some id =>
                  have hr0 := hslots r
                  rw [hslr] at hr0
                  exact hr0
              | none =>
                  have hr0 := hslots r
                  rw [hslr] at hr0
                  exact hr0
  | fire id t =>
      cases hfind : s.timers.find? (fun e => e.1 == id) with
      | none =>
          simp only [wsStep, hfind]
          exact ⟨hbound, hpw, hslots⟩
      | some ef =>
          obtain ⟨idf, rf, dlf⟩ := ef
          have hefmem : (idf, rf, dlf) ∈ s.timers := List.mem_of_find?_eq_some hfind
          have hefid : idf = id := by
            have := List.find?_some hfind
            simpa using this
          subst hefid
          refine ⟨?_, ?_, ?_⟩
          · intro x hx
            simp only [wsStep, hfind] at hx ⊢
            exact hbound x (List.mem_of_mem_filter hx)
          · simp only [wsStep, hfind]
            exact hpw.filter _
          · intro r
            simp only [wsStep, hfind]
            by_cases hrr : r = rf
            · subst hrr
              rw [if_pos rfl]
              have hr0 := hslots r
              cases hslr : s.slot r with
              | none =>
                  rw [hslr] at hr0
                  have hmem : (idf, r, dlf) ∈ s.timers.filter (fun e => e.2.1 == r) := by
                    rw [List.mem_filter]
                    exact ⟨hefmem, by simp⟩
                  rw [hr0] at hmem
                  cases hmem
              | some id'' =>
                  rw [hslr] at hr0
                  obtain ⟨dl, hdl⟩ := hr0
                  have hmem : (idf, r, dlf) ∈ s.timers.filter (fun e => e.2.1 == r) := by
                    rw [List.mem_filter]
                    exact ⟨hefmem, by simp⟩
                  rw [hdl] at hmem
                  have heq : ((idf, r, dlf) : ℕ × ℕ × ℕ) = (id'', r, dl) :=
                    List.mem_singleton.mp hmem
                  have hid : id'' = idf :=
                    (congrArg (fun p : ℕ × ℕ × ℕ => p.1) heq).symm
                  subst hid
                  exact cancel_own hdl
            · rw [if_neg hrr]
              cases hslr : s.slot r with
              | some id'' =>
                  have hr0 := hslots r
                  rw [hslr] at hr0
                  obtain ⟨dl, hdl⟩ := hr0
                  refine ⟨dl, ?_⟩
                  have hmem : (id'', r, dl) ∈ s.timers := filter_review_mem hdl
                  have hids : id'' ≠ idf := by
                    have hne : ((id'', r, dl) : ℕ × ℕ × ℕ) ≠ (idf, rf, dlf) := by
                      intro hcon
                      exact hrr (congrArg (fun p : ℕ × ℕ × ℕ => p.2.1) hcon)
                    exact pairwise_ne_ids hpw hmem hefmem hne
                  rw [filter_swap, hdl]
                  simp [hids]
              | none =>
                  have hr0 := hslots r
                  rw [hslr] at hr0
                  rw [filter_swap, hr0]
                  rfl

theorem wsRun_inv : ∀ (evs : List WSEvent) (s : WorkspaceState), WSInv s → WSInv (wsRun s evs)
  | [], s, h => h
  | e :: rest, s, h => wsRun_inv rest (wsStep s e) (wsStep_inv s e h)

theorem wsStep_lastTime (s : WorkspaceState) (e : WSEvent) :
    (wsStep s e).lastTime = e.time := by
  cases e with
  | input r text t => rfl
  | blur r text t => rfl
  | fire id t =>
      cases hfind : s.timers.find? (fun x => x.1 == id) with
      | none => simp [wsStep, hfind, WSEvent.time]
      | some ef =>
          obtain ⟨a, b, c⟩ := ef
          simp [wsStep, hfind, WSEvent.time]

theorem validFrom_time_lb :
    ∀ (evs : List WSEvent) (s : WorkspaceState), validFrom s evs = true →
      ∀ e ∈ evs, s.lastTime ≤ e.time := by
  intro evs
  induction evs with
  | nil =>
      intro s _ e he
      cases he
  | cons f rest ih =>
      intro s hv e he
      simp only [validFrom, Bool.and_eq_true] at hv
      obtain ⟨hok, hrest⟩ := hv
      have hlb : s.lastTime ≤ f.time := by
        cases f with
        | input r text t => simpa [eventOK, WSEvent.time] using hok
        | blur r text t => simpa [eventOK, WSEvent.time] using hok
        | fire id t =>
            simp only [eventOK, Bool.and_eq_true, decide_eq_true_eq] at hok
            exact hok.1
      rcases List.mem_cons.mp he with rfl | hmem
      · exact hlb
      · have hstep := ih (wsStep s f) hrest e hmem
        rw [wsStep_lastTime] at hstep
        exact hlb.trans hstep

/-- With no pending timer for review `r`, no slot entry for it, and no
user events on it, a run adds no saves for `r`. -/
theorem wsRun_no_pending_no_save (r : ℕ) :
    ∀ (evs : List WSEvent) (s : WorkspaceState),
      WSInv s →
      evs.filter (WSEvent.userFor r) = [] →
      s.slot r = none →
      s.timers.filter (fun e => e.2.1 == r) = [] →
      (wsRun s evs).saves.filter (fun sv => sv.1 == r) =
        s.saves.filter (fun sv => sv.1 == r) := by
  intro evs
  induction evs with
  | nil =>
      intro s _ _ _ _
      rfl
  | cons f rest ih =>
      intro s hinv hfil hslot htim
      have hsplit : WSEvent.userFor r f = false ∧ rest.filter (WSEvent.userFor r) = [] := by
        cases hb : WSEvent.userFor r f with
        | true =>
            rw [List.filter_cons, if_pos hb] at hfil
            cases hfil
        | false =>
            rw [List.filter_cons, if_neg (by simp [hb])] at hfil
            exact ⟨rfl, hfil⟩
      obtain ⟨huf, hfil'⟩ := hsplit
      have hinv' := wsStep_inv s f hinv
      obtain ⟨hbound, hpw, hslots⟩ := hinv
      cases f with
      | input r' text t =>
          have hrr : ¬ r' = r := by simpa [WSEvent.userFor] using huf
          have hgoal := ih (wsStep s (.input r' text t)) hinv' hfil' ?_ ?_
          · rw [show (wsRun s (.input r' text t :: rest)) =
                wsRun (wsStep s (.input r' text t)) rest from rfl]
            rw [hgoal]
            cases hsl : s.slot r' <;> simp [wsStep, hsl]
          · simp only [wsStep]
            rw [if_neg (fun h => hrr h.symm)]
            exact hslot
          · simp only [wsStep]
            rw [List.filter_append]
            have hnew : List.filter (fun e => e.2.1 == r) [(s.nextId, r', t + 600)] = [] := by
              simp [hrr]
            rw [hnew, List.append_nil]
            cases hsl : s.slot r' with
            | some id' =>
                rw [filter_swap, htim]
                rfl
            | none =>
                exact htim
      | blur r' text t =>
          have hrr : ¬ r' = r := by simpa [WSEvent.userFor] using huf
          have hgoal := ih (wsStep s (.blur r' text t)) hinv' hfil' ?_ ?_
          · rw [show (wsRun s (.blur r' text t :: rest)) =
                wsRun (wsStep s (.blur r' text t)) rest from rfl]
            rw [hgoal]
            have hsaves : (wsStep s (.blur r' text t)).saves = s.saves ++ [(r', text)] := by
              cases hsl : s.slot r' <;> simp [wsStep, hsl]
            rw [hsaves, List.filter_append]
            simp [hrr]
          · simp only [wsStep]
            rw [if_neg (fun h => hrr h.symm)]
            exact hslot
          · simp only [wsStep]
            cases hsl : s.slot r' with
            | some id' =>
                rw [filter_swap, htim]
                rfl
            | none =>
                exact htim
      | fire id t =>
          cases hfind : s.timers.find? (fun x => x.1 == id) with
          | none =>
              have hgoal := ih (wsStep s (.fire id t)) hinv' hfil' ?_ ?_
              · rw [show (wsRun s (.fire id t :: rest)) =
                    wsRun (wsStep s (.fire id t)) rest from rfl]
                rw [hgoal]
                simp [wsStep, hfind]
              · simp [wsStep, hfind, hslot]
              · simp [wsStep, hfind, htim]
          | some ef =>
              obtain ⟨idf, rf, dlf⟩ := ef
              have hefmem : (idf, rf, dlf) ∈ s.timers := List.mem_of_find?_eq_some hfind
              have hrf : ¬ rf = r := by
                intro hcon
                subst hcon
                have : (idf, rf, dlf) ∈ s.timers.filter (fun e => e.2.1 == rf) := by
                  rw [List.mem_filter]
                  exact ⟨hefmem, by simp⟩
                rw [htim] at this
                cases this
              have hgoal := ih (wsStep s (.fire id t)) hinv' hfil' ?_ ?_
              · rw [show (wsRun s (.fire id t :: rest)) =
                    wsRun (wsStep s (.fire id t)) rest from rfl]
                rw [hgoal]
                simp only [wsStep, hfind]
                rw [List.filter_append]
                simp [hrf]
              · simp only [wsStep, hfind]
                rw [if_neg (fun h => hrf h.symm)]
                exact hslot
              · simp only [wsStep, hfind]
                rw [filter_swap, htim]
                rfl

theorem gapsOK_tail {a : ℕ} {l : List ℕ} (h : gapsOK (a :: l) = true) :
    gapsOK l = true := by
  cases l with
  | nil => rfl
  | cons b rest =>
      simp only [gapsOK, Bool.and_eq_true] at h
      exact h.2

theorem gapsOK_head {a b : ℕ} {l : List ℕ} (h : gapsOK (a :: b :: l) = true) :
    b < a + 600 := by
  simp only [gapsOK, Bool.and_eq_true, decide_eq_true_eq] at h
  exact h.1

/-- The central debounce argument: if the user events on review `r` in a
valid trace form a burst of inputs each arriving within 600 ms of the
previous one, terminated by a blur, and any timer already pending for
`r` has its deadline strictly after the first user event, then the run
adds exactly one save for `r`, carrying the blur text. -/
theorem wsRun_burst (r : ℕ) (text : String) (tb : ℕ) :
    ∀ (evs : List WSEvent) (s : WorkspaceState) (us : List (String × ℕ)),
      WSInv s →
      validFrom s evs = true →
      evs.filter (WSEvent.userFor r) =
        us.map (fun p => WSEvent.input r p.1 p.2) ++ [WSEvent.blur r text tb] →
      gapsOK (us.map (fun p => p.2) ++ [tb]) = true →
      (∀ id dl, s.slot r = some id → (id, r, dl) ∈ s.timers →
        firstUserTime us tb < dl) →
      (wsRun s evs).saves.filter (fun sv => sv.1 == r) =
        s.saves.filter (fun sv => sv.1 == r) ++ [(r, text)] := by
  intro evs
  induction evs with
  | nil =>
      intro s us hinv hvalid hfil hgaps hslotc
      exfalso
      cases us with
      | nil =>
          simp only [List.filter_nil, List.map_nil, List.nil_append] at hfil
          exact List.cons_ne_nil _ _ hfil.symm
      | cons u us' =>
          simp only [List.filter_nil, List.map_cons, List.cons_append] at hfil
          exact List.cons_ne_nil _ _ hfil.symm
  | cons f rest ih =>
      intro s us hinv hvalid hfil hgaps hslotc
      simp only [validFrom, Bool.and_eq_true] at hvalid
      obtain ⟨hok, hvrest⟩ := hvalid
      have hbound := hinv.1
      have hpw := hinv.2.1
      have hslots := hinv.2.2
      cases f with
      | input r' text' t' =>
          by_cases hrr : r = r'
          · subst hrr
            rw [List.filter_cons, if_pos (by simp [WSEvent.userFor])] at hfil
            cases us with
            | nil =>
                simp only [List.map_nil, List.nil_append] at hfil
                injection hfil with h1 h2
                exact WSEvent.noConfusion h1
            | cons u us' =>
                obtain ⟨u1, t1⟩ := u
                simp only [List.map_cons, List.cons_append] at hfil
                injection hfil with h1 h2
                injection h1 with hr1 htx ht
                subst htx
                subst ht
                simp only [List.map_cons, List.cons_append] at hgaps
                have hgaps' : gapsOK (us'.map (fun p => p.2) ++ [tb]) = true :=
                  gapsOK_tail hgaps
                have hfut : firstUserTime us' tb < t' + 600 := by
                  cases us' with
                  | nil =>
                      simp only [List.map_nil, List.nil_append] at hgaps
                      exact gapsOK_head hgaps
                  | cons v vs =>
                      simp only [List.map_cons, List.cons_append] at hgaps
                      exact gapsOK_head hgaps
                have hinv1 := wsStep_inv s (.input r text' t') hinv
                have hslotc' : ∀ id dl,
                    (wsStep s (.input r text' t')).slot r = some id →
                    (id, r, dl) ∈ (wsStep s (.input r text' t')).timers →
                    firstUserTime us' tb < dl := by
                  intro id dl hslot1 hmem1
                  cases hsl : s.slot r with
                  | some idp =>
                      simp only [wsStep, hsl] at hslot1 hmem1
                      simp only [if_true] at hslot1
                      have hid : id = s.nextId := (Option.some.inj hslot1).symm
                      subst hid
                      rcases List.mem_append.mp hmem1 with hm | hm
                      · exact absurd (hbound _ (List.mem_of_mem_filter hm))
                          (lt_irrefl _)
                      · have hdl : dl = t' + 600 :=
                          congrArg (fun p : ℕ × ℕ × ℕ => p.2.2)
                            (List.mem_singleton.mp hm)
                        rw [hdl]
                        exact hfut
                  | none =>
                      simp only [wsStep, hsl] at hslot1 hmem1
                      simp only [if_true] at hslot1
                      have hid : id = s.nextId := (Option.some.inj hslot1).symm
                      subst hid
                      rcases List.mem_append.mp hmem1 with hm | hm
                      · exact absurd (hbound _ hm) (lt_irrefl _)
                      · have hdl : dl = t' + 600 :=
                          congrArg (fun p : ℕ × ℕ × ℕ => p.2.2)
                            (List.mem_singleton.mp hm)
                        rw [hdl]
                        exact hfut
                have hrest := ih (wsStep s (.input r text' t')) us' hinv1 hvrest
                  h2 hgaps' hslotc'
                rw [show wsRun s (WSEvent.input r text' t' :: rest) =
                    wsRun (wsStep s (.input r text' t')) rest from rfl, hrest]
                have hsv : (wsStep s (.input r text' t')).saves = s.saves := rfl
                rw [hsv]
          · rw [List.filter_cons,
              if_neg (by simp only [WSEvent.userFor, beq_iff_eq]; exact fun h => hrr h.symm)] at hfil
            have hinv1 := wsStep_inv s (.input r' text' t') hinv
            have hslotc' : ∀ id dl,
                (wsStep s (.input r' text' t')).slot r = some id →
                (id, r, dl) ∈ (wsStep s (.input r' text' t')).timers →
                firstUserTime us tb < dl := by
              intro id dl hslot1 hmem1
              cases hsl : s.slot r' with
              | some idp =>
                  simp only [wsStep, hsl] at hslot1 hmem1
                  rw [if_neg hrr] at hslot1
                  rcases List.mem_append.mp hmem1 with hm | hm
                  · exact hslotc id dl hslot1 (List.mem_of_mem_filter hm)
                  · exact absurd (congrArg (fun p : ℕ × ℕ × ℕ => p.2.1)
                      (List.mem_singleton.mp hm)) hrr
              | none =>
                  simp only [wsStep, hsl] at hslot1 hmem1
                  rw [if_neg hrr] at hslot1
                  rcases List.mem_append.mp hmem1 with hm | hm
                  · exact hslotc id dl hslot1 hm
                  · exact absurd (congrArg (fun p : ℕ × ℕ × ℕ => p.2.1)
                      (List.mem_singleton.mp hm)) hrr
            have hrest := ih (wsStep s (.input r' text' t')) us hinv1 hvrest
              hfil hgaps hslotc'
            rw [show wsRun s (WSEvent.input r' text' t' :: rest) =
                wsRun (wsStep s (.input r' text' t')) rest from rfl, hrest]
            have hsv : (wsStep s (.input r' text' t')).saves = s.saves := rfl
            rw [hsv]
      | blur r' text' t' =>
          by_cases hrr : r = r'
          · subst hrr
            rw [List.filter_cons, if_pos (by simp [WSEvent.userFor])] at hfil
            cases us with
            | cons u us' =>
                obtain ⟨u1, t1⟩ := u
                simp only [List.map_cons, List.cons_append] at hfil
                injection hfil with h1 h2
                exact WSEvent.noConfusion h1
            | nil =>
                simp only [List.map_nil, List.nil_append] at hfil
                injection hfil with h1 h2
                injection h1 with hr1 htx ht
                subst htx
                subst ht
                have hinv1 := wsStep_inv s (.blur r text' t') hinv
                have hslot1 : (wsStep s (.blur r text' t')).slot r = none := by
                  cases hsl : s.slot r <;> simp [wsStep, hsl]
                have htim1 : (wsStep s (.blur r text' t')).timers.filter
                    (fun e => e.2.1 == r) = [] := by
                  cases hsl : s.slot r with
                  | some idp =>
                      have hr0 := hslots r
                      rw [hsl] at hr0
                      obtain ⟨dlp, hdlp⟩ := hr0
                      simp only [wsStep, hsl]
                      exact cancel_own hdlp
                  | none =>
                      have hr0 := hslots r
                      rw [hsl] at hr0
                      simp only [wsStep, hsl]
                      exact hr0
                have hrest := wsRun_no_pending_no_save r rest
                  (wsStep s (.blur r text' t')) hinv1 h2 hslot1 htim1
                rw [show wsRun s (WSEvent.blur r text' t' :: rest) =
                    wsRun (wsStep s (.blur r text' t')) rest from rfl, hrest]
                have hsv : (wsStep s (.blur r text' t')).saves =
                    s.saves ++ [(r, text')] := by
                  cases hsl : s.slot r <;> simp [wsStep, hsl]
                rw [hsv, List.filter_append]
                simp
          · rw [List.filter_cons,
              if_neg (by simp only [WSEvent.userFor, beq_iff_eq]; exact fun h => hrr h.symm)] at hfil
            have hinv1 := wsStep_inv s (.blur r' text' t') hinv
            have hslotc' : ∀ id dl,
                (wsStep s (.blur r' text' t')).slot r = some id →
                (id, r, dl) ∈ (wsStep s (.blur r' text' t')).timers →
                firstUserTime us tb < dl := by
              intro id dl hslot1 hmem1
              cases hsl : s.slot r' with
              | some idp =>
                  simp only [wsStep, hsl] at hslot1 hmem1
                  rw [if_neg hrr] at hslot1
                  exact hslotc id dl hslot1 (List.mem_of_mem_filter hmem1)
              | none =>
                  simp only [wsStep, hsl] at hslot1 hmem1
                  rw [if_neg hrr] at hslot1
                  exact hslotc id dl hslot1 hmem1
            have hrest := ih (wsStep s (.blur r' text' t')) us hinv1 hvrest
              hfil hgaps hslotc'
            rw [show wsRun s (WSEvent.blur r' text' t' :: rest) =
                wsRun (wsStep s (.blur r' text' t')) rest from rfl, hrest]
            have hsv : (wsStep s (.blur r' text' t')).saves =
                s.saves ++ [(r', text')] := by
              cases hsl : s.slot r' <;> simp [wsStep, hsl]
            rw [hsv, List.filter_append]
            have hz : List.filter (fun sv => sv.1 == r) [(r', text')] = [] := by
              simp [Ne.symm hrr]
            rw [hz, List.append_nil]
      | fire id t =>
          rw [List.filter_cons, if_neg (by simp [WSEvent.userFor])] at hfil
          cases hfind : s.timers.find? (fun e => e.1 == id) with
          | none =>
              have hinv1 := wsStep_inv s (.fire id t) hinv
              have hslotc' : ∀ id' dl,
                  (wsStep s (.fire id t)).slot r = some id' →
                  (id', r, dl) ∈ (wsStep s (.fire id t)).timers →
                  firstUserTime us tb < dl := by
                intro id' dl hslot1 hmem1
                simp only [wsStep, hfind] at hslot1 hmem1
                exact hslotc id' dl hslot1 hmem1
              have hrest := ih (wsStep s (.fire id t)) us hinv1 hvrest
                hfil hgaps hslotc'
              rw [show wsRun s (WSEvent.fire id t :: rest) =
                  wsRun (wsStep s (.fire id t)) rest from rfl, hrest]
              have hsv : (wsStep s (.fire id t)).saves = s.saves := by
                simp [wsStep, hfind]
              rw [hsv]
          | some ef =>
              obtain ⟨idf, rf, dlf⟩ := ef
              have hefmem : (idf, rf, dlf) ∈ s.timers :=
                List.mem_of_find?_eq_some hfind
              have hefid : idf = id := by simpa using List.find?_some hfind
              by_cases hrfr : r = rf
              · exfalso
                subst hrfr
                have hr0 := hslots r
                cases hsl : s.slot r with
                | none =>
                    rw [hsl] at hr0
                    have hmemf : (idf, r, dlf) ∈ s.timers.filter
                        (fun e => e.2.1 == r) := by
                      rw [List.mem_filter]
                      exact ⟨hefmem, by simp⟩
                    rw [hr0] at hmemf
                    cases hmemf
                | some id0 =>
                    rw [hsl] at hr0
                    obtain ⟨dl0, hdl0⟩ := hr0
                    have hmemf : (idf, r, dlf) ∈ s.timers.filter
                        (fun e => e.2.1 == r) := by
                      rw [List.mem_filter]
                      exact ⟨hefmem, by simp⟩
                    rw [hdl0] at hmemf
                    have heq : ((idf, r, dlf) : ℕ × ℕ × ℕ) = (id0, r, dl0) :=
                      List.mem_singleton.mp hmemf
                    have hdleq : dlf = dl0 :=
                      congrArg (fun p : ℕ × ℕ × ℕ => p.2.2) heq
                    have hfu0 : firstUserTime us tb < dl0 :=
                      hslotc id0 dl0 hsl (filter_review_mem hdl0)
                    have hfu : firstUserTime us tb < dlf := by
                      rw [hdleq]
                      exact hfu0
                    simp only [eventOK, Bool.and_eq_true, decide_eq_true_eq,
                      List.any_eq_true, beq_iff_eq] at hok
                    obtain ⟨hlt, e, hemem, heid, hedl⟩ := hok
                    have he_eq : e = (idf, r, dlf) := by
                      by_contra hne
                      exact pairwise_ne_ids hpw hemem hefmem hne
                        (by rw [heid, hefid])
                    rw [he_eq] at hedl
                    have hdlt : dlf ≤ t := hedl
                    have hnext : ∃ e', e' ∈ rest ∧
                        WSEvent.time e' = firstUserTime us tb := by
                      cases us with
                      | nil =>
                          refine ⟨WSEvent.blur r text tb, ?_, rfl⟩
                          have hm : WSEvent.blur r text tb ∈
                              rest.filter (WSEvent.userFor r) := by
                            rw [hfil]
                            simp
                          exact List.mem_of_mem_filter hm
                      | cons u us' =>
                          refine ⟨WSEvent.input r u.1 u.2, ?_, rfl⟩
                          have hm : WSEvent.input r u.1 u.2 ∈
                              rest.filter (WSEvent.userFor r) := by
                            rw [hfil]
                            simp
                          exact List.mem_of_mem_filter hm
                    obtain ⟨e', he'mem, he'time⟩ := hnext
                    have hlb := validFrom_time_lb rest (wsStep s (.fire id t))
                      hvrest e' he'mem
                    rw [wsStep_lastTime, he'time] at hlb
                    have hlbt : t ≤ firstUserTime us tb := hlb
                    omega
              · have hinv1 := wsStep_inv s (.fire id t) hinv
                have hslotc' : ∀ id' dl,
                    (wsStep s (.fire id t)).slot r = some id' →
                    (id', r, dl) ∈ (wsStep s (.fire id t)).timers →
                    firstUserTime us tb < dl := by
                  intro id' dl hslot1 hmem1
                  simp only [wsStep, hfind] at hslot1 hmem1
                  rw [if_neg hrfr] at hslot1
                  exact hslotc id' dl hslot1 (List.mem_of_mem_filter hmem1)
                have hrest := ih (wsStep s (.fire id t)) us hinv1 hvrest
                  hfil hgaps hslotc'
                rw [show wsRun s (WSEvent.fire id t :: rest) =
                    wsRun (wsStep s (.fire id t)) rest from rfl, hrest]
                have hsv : (wsStep s (.fire id t)).saves =
                    s.saves ++ [(rf, s.comment rf)] := by
                  simp [wsStep, hfind]
                rw [hsv, List.filter_append]
                have hz : List.filter (fun sv => sv.1 == r)
                    [(rf, s.comment rf)] = [] := by
                  simp [Ne.symm hrfr]
                rw [hz, List.append_nil]

theorem initialWorkspace_inv (c0 : ℕ → String) : WSInv (initialWorkspace c0) :=
  ⟨fun e he => absurd he (List.not_mem_nil e), List.Pairwise.nil, fun r => rfl⟩

/-- C8: comment editing debounces saves per review. A keystroke updates
the in-memory comment immediately, cancels the pending save timer for
that review if any, and schedules a single fresh timer exactly 600 ms
out; at every point of a run at most one timer is pending per review;
and in any valid trace whose user events on review `r` are a burst of
keystrokes each arriving within 600 ms of the previous one terminated
by a blur, the run adds exactly one save for `r`, carrying the full
final text — no keystroke is lost. -/
theorem C8_debounced_comment_saves
    (s : WorkspaceState) (hinv : WSInv s) (r : ℕ)
    (text0 : String) (t0 : ℕ)
    (text : String) (tb : ℕ) (us : List (String × ℕ)) (evs : List WSEvent)
    (hvalid : validFrom s evs = true)
    (hfil : evs.filter (WSEvent.userFor r) =
      us.map (fun p => WSEvent.input r p.1 p.2) ++ [WSEvent.blur r text tb])
    (hgaps : gapsOK (us.map (fun p => p.2) ++ [tb]) = true)
    (hfresh : s.slot r = none) :
    (wsStep s (.input r text0 t0)).comment r = text0 ∧
    (wsStep s (.input r text0 t0)).slot r = some s.nextId ∧
    (wsStep s (.input r text0 t0)).timers.filter (fun e => e.2.1 == r) =
      [(s.nextId, r, t0 + 600)] ∧
    (∀ n r', ((wsRun s (evs.take n)).timers.filter
        (fun e => e.2.1 == r')).length ≤ 1) ∧
    (wsRun s evs).saves.filter (fun sv => sv.1 == r) =
      s.saves.filter (fun sv => sv.1 == r) ++ [(r, text)] := by
  refine ⟨?_, ?_, ?_, ?_, ?_⟩
  · cases hsl : s.slot r <;> simp [wsStep, hsl]
  · cases hsl : s.slot r <;> simp [wsStep, hsl]
  · cases hsl : s.slot r with
    | some idp =>
        have hr0 := hinv.2.2 r
        rw [hsl] at hr0
        obtain ⟨dlp, hdlp⟩ := hr0
        simp only [wsStep, hsl]
        rw [List.filter_append, cancel_own hdlp]
        simp
    | none =>
        have hr0 := hinv.2.2 r
        rw [hsl] at hr0
        simp only [wsStep, hsl]
        rw [List.filter_append, hr0]
        simp
  · intro n r'
    have h3 := (wsRun_inv (evs.take n) s hinv).2.2 r'
    cases hsl : (wsRun s (evs.take n)).slot r' with
    | some idp =>
        rw [hsl] at h3
        obtain ⟨dl, hdl⟩ := h3
        rw [hdl]
        exact Nat.le_refl 1
    | none =>
        rw [hsl] at h3
        rw [h3]
        exact Nat.zero_le 1
  · exact wsRun_burst r text tb evs s us hinv hvalid hfil hgaps
      (fun id dl hs _ => by rw [hfresh] at hs; exact Option.noConfusion hs)

/-- C8 witness: five keystrokes 100 ms apart followed by a blur at
450 ms, starting from a fresh page, are a valid in-window burst and the
run produces exactly one save, carrying the full text. -/
theorem C8_debounced_comment_saves_witness :
    validFrom (initialWorkspace (fun _ => ""))
      [WSEvent.input 0 "h" 0, WSEvent.input 0 "he" 100,
       WSEvent.input 0 "hel" 200, WSEvent.input 0 "hell" 300,
       WSEvent.input 0 "hello" 400, WSEvent.blur 0 "hello" 450] = true ∧
    gapsOK [0, 100, 200, 300, 400, 450] = true ∧
    (wsRun (initialWorkspace (fun _ => ""))
      [WSEvent.input 0 "h" 0, WSEvent.input 0 "he" 100,
       WSEvent.input 0 "hel" 200, WSEvent.input 0 "hell" 300,
       WSEvent.input 0 "hello" 400, WSEvent.blur 0 "hello" 450]).saves.filter
        (fun sv => sv.1 == 0) = [(0, "hello")] :=
  ⟨by decide, by decide,
    (C8_debounced_comment_saves (initialWorkspace (fun _ => ""))
      (initialWorkspace_inv (fun _ => "")) 0 "h" 0 "hello" 450
      [("h", 0), ("he", 100), ("hel", 200), ("hell", 300), ("hello", 400)]
      [WSEvent.input 0 "h" 0, WSEvent.input 0 "he" 100,
       WSEvent.input 0 "hel" 200, WSEvent.input 0 "hell" 300,
       WSEvent.input 0 "hello" 400, WSEvent.blur 0 "hello" 450]
      (by decide) (by decide) (by decide) rfl).2.2.2.2⟩
